import Mathlib

/-!
Verification of the Bitcoin transaction / PSBT binary codec of
tests/test_framework/serializations.py: VarInt ("compact size") codec,
transaction wire format, PSBT keyed maps, and the BIP143 sighash preimage.

Byte strings are modelled as lists of naturals (each in [0, 256) in
well-formed data); streams are consumed by functions returning the parsed
value together with the unconsumed tail, and fallible operations return
Option or Except.
-/

namespace Liana

/-- A byte string, as produced or consumed by the Python codec. -/
abbrev Bytes := List Nat

/-- All entries of a byte string are actual bytes. -/
def bytesOk (b : Bytes) : Prop := ∀ x ∈ b, x < 256

instance (b : Bytes) : Decidable (bytesOk b) := by
  unfold bytesOk; infer_instance

/-- Little-endian encoding of the low `w` bytes of `n`
(mirrors struct.pack of fixed-width little-endian fields). -/
def toLE : Nat → Nat → Bytes
  | 0, _ => []
  | w + 1, n => n % 256 :: toLE w (n / 256)

/-- Little-endian interpretation of a byte string
(mirrors struct.unpack of fixed-width little-endian fields). -/
def fromLE : Bytes → Nat
  | [] => 0
  | b :: bs => b + 256 * fromLE bs

/-- Read exactly `n` bytes from the stream (f.read(n) followed by a
fixed-width unpack fails when fewer than `n` bytes remain). -/
def readBytes (n : Nat) (s : Bytes) : Option (Bytes × Bytes) :=
  if n ≤ s.length then some (s.take n, s.drop n) else none

/-- Read a `w`-byte little-endian unsigned integer from the stream. -/
def readLE (w : Nat) (s : Bytes) : Option (Nat × Bytes) :=
  (readBytes w s).map fun p => (fromLE p.1, p.2)

/-- The function ser_compact_size of serializations.py. -/
def ser_compact_size (l : Nat) : Bytes :=
  if l < 253 then [l]
  else if l < 0x10000 then 253 :: toLE 2 l
  else if l < 0x100000000 then 254 :: toLE 4 l
  else 255 :: toLE 8 l

/-- The function deser_compact_size of serializations.py. -/
def deser_compact_size (s : Bytes) : Option (Nat × Bytes) :=
  match s with
  | [] => none
  | nit :: rest =>
    if nit = 253 then readLE 2 rest
    else if nit = 254 then readLE 4 rest
    else if nit = 255 then readLE 8 rest
    else some (nit, rest)

/-- The function ser_string of serializations.py. -/
def ser_string (b : Bytes) : Bytes := ser_compact_size b.length ++ b

/-- The function deser_string of serializations.py. -/
def deser_string (s : Bytes) : Option (Bytes × Bytes) :=
  deser_compact_size s >>= fun p => readBytes p.1 p.2

/-- The function ser_uint256 of serializations.py: eight 4-byte
little-endian limbs, least significant first. -/
def ser_uint256_limbs : Nat → Nat → Bytes
  | 0, _ => []
  | i + 1, u => toLE 4 (u % 2 ^ 32) ++ ser_uint256_limbs i (u / 2 ^ 32)

/-- The function ser_uint256 of serializations.py. -/
def ser_uint256 (u : Nat) : Bytes := ser_uint256_limbs 8 u

/-- The function deser_uint256 of serializations.py. -/
def deser_uint256_limbs : Nat → Bytes → Option (Nat × Bytes)
  | 0, s => some (0, s)
  | i + 1, s =>
    readLE 4 s >>= fun p =>
      deser_uint256_limbs i p.2 >>= fun q => some (p.1 + 2 ^ 32 * q.1, q.2)

/-- The function deser_uint256 of serializations.py. -/
def deser_uint256 (s : Bytes) : Option (Nat × Bytes) := deser_uint256_limbs 8 s

/-- The function uint256_from_str of serializations.py (little-endian
interpretation of the first 32 bytes). -/
def uint256_from_str (s : Bytes) : Nat := fromLE (s.take 32)

/-- Serialization of a signed 32-bit field, mirroring struct.pack of a
signed little-endian int (two's complement). -/
def serInt32 (v : Int) : Bytes := toLE 4 (v % 2 ^ 32).toNat

/-- Deserialization of a signed 32-bit little-endian field, mirroring
struct.unpack of a signed int. -/
def deserInt32 (s : Bytes) : Option (Int × Bytes) :=
  (readLE 4 s).map fun p =>
    (if p.1 < 2 ^ 31 then (p.1 : Int) else (p.1 : Int) - 2 ^ 32, p.2)

/-- Serialization of a signed 64-bit field, mirroring struct.pack of a
signed little-endian long long (two's complement). -/
def serInt64 (v : Int) : Bytes := toLE 8 (v % 2 ^ 64).toNat

/-- Deserialization of a signed 64-bit little-endian field. -/
def deserInt64 (s : Bytes) : Option (Int × Bytes) :=
  (readLE 8 s).map fun p =>
    (if p.1 < 2 ^ 63 then (p.1 : Int) else (p.1 : Int) - 2 ^ 64, p.2)

/-! ## Round-trip lemmas for the primitive codec -/

theorem toLE_length (w n : Nat) : (toLE w n).length = w := by
  induction w generalizing n with
  | zero => rfl
  | succ w ih => simp [toLE, ih]

theorem fromLE_toLE {w n : Nat} (h : n < 256 ^ w) : fromLE (toLE w n) = n := by
  induction w generalizing n with
  | zero => simp [pow_zero, Nat.lt_one_iff] at h; simp [toLE, fromLE, h]
  | succ w ih =>
    have hdiv : n / 256 < 256 ^ w := by
      rw [Nat.div_lt_iff_lt_mul (by norm_num)]
      calc n < 256 ^ (w + 1) := h
        _ = 256 ^ w * 256 := by ring
    simp [toLE, fromLE, ih hdiv, Nat.mod_add_div]

theorem toLE_bytesOk (w n : Nat) : bytesOk (toLE w n) := by
  induction w generalizing n with
  | zero => intro x hx; simp [toLE] at hx
  | succ w ih =>
    intro x hx
    simp only [toLE, List.mem_cons] at hx
    rcases hx with h | h
    · subst h; exact Nat.mod_lt _ (by norm_num)
    · exact ih _ x h

theorem readBytes_append {b : Bytes} {n : Nat} (h : b.length = n) (r : Bytes) :
    readBytes n (b ++ r) = some (b, r) := by
  subst h
  simp [readBytes, List.take_append, List.drop_append]

theorem readLE_append {b : Bytes} {w : Nat} (h : b.length = w) (r : Bytes) :
    readLE w (b ++ r) = some (fromLE b, r) := by
  simp [readLE, readBytes_append h]

theorem readLE_toLE {w n : Nat} (h : n < 256 ^ w) (r : Bytes) :
    readLE w (toLE w n ++ r) = some (n, r) := by
  rw [readLE_append (toLE_length w n), fromLE_toLE h]

/-- Decoding inverts the VarInt encoder, consuming exactly the encoded
bytes, for every value below 2^64 (larger values are not encodable by
struct.pack in the source). -/
theorem deser_compact_size_ser {n : Nat} (h : n < 2 ^ 64) (r : Bytes) :
    deser_compact_size (ser_compact_size n ++ r) = some (n, r) := by
  unfold ser_compact_size
  by_cases h1 : n < 253
  · simp only [if_pos h1, List.cons_append, List.nil_append, deser_compact_size]
    have : ¬ n = 253 := by omega
    have : ¬ n = 254 := by omega
    have : ¬ n = 255 := by omega
    simp_all
  · by_cases h2 : n < 0x10000
    · simp only [if_neg h1, if_pos h2, List.cons_append, deser_compact_size, if_pos rfl]
      exact readLE_toLE (by norm_num at h2 ⊢; omega) r
    · by_cases h3 : n < 0x100000000
      · simp only [if_neg h1, if_neg h2, if_pos h3, List.cons_append, deser_compact_size]
        norm_num
        exact readLE_toLE (by norm_num at h3 ⊢; omega) r
      · simp only [if_neg h1, if_neg h2, if_neg h3, List.cons_append, deser_compact_size]
        norm_num
        exact readLE_toLE (by norm_num at h ⊢; omega) r

theorem ser_compact_size_length_pos (n : Nat) : 0 < (ser_compact_size n).length := by
  unfold ser_compact_size
  split_ifs <;> simp [toLE_length]

/-- Decoding inverts the length-prefixed byte-string encoder. -/
theorem deser_string_ser {b : Bytes} (h : b.length < 2 ^ 64) (r : Bytes) :
    deser_string (ser_string b ++ r) = some (b, r) := by
  simp only [ser_string, deser_string, List.append_assoc, deser_compact_size_ser h,
    Option.bind_eq_bind, Option.some_bind]
  exact readBytes_append rfl r

theorem readBytes_length {n : Nat} {s b rest : Bytes}
    (h : readBytes n s = some (b, rest)) : rest.length + n = s.length ∧ b.length = n := by
  unfold readBytes at h
  split at h
  · next hle =>
    injection h with h'
    injection h' with h1 h2
    subst h1; subst h2
    constructor
    · simp [List.length_drop]; omega
    · simp [List.length_take]; omega
  · exact absurd h (by simp)

theorem readLE_length {w : Nat} {s : Bytes} {v : Nat} {rest : Bytes}
    (h : readLE w s = some (v, rest)) : rest.length + w = s.length := by
  cases hrb : readBytes w s with
  | none => simp [readLE, hrb] at h
  | some p =>
    obtain ⟨b, r⟩ := p
    simp only [readLE, hrb, Option.map_some', Option.some.injEq, Prod.mk.injEq] at h
    obtain ⟨h1, h2⟩ := h
    subst h2
    exact (readBytes_length hrb).1

theorem deser_compact_size_length {s : Bytes} {n : Nat} {rest : Bytes}
    (h : deser_compact_size s = some (n, rest)) : rest.length < s.length := by
  unfold deser_compact_size at h
  match s with
  | [] => simp at h
  | nit :: r =>
    simp only at h
    split at h
    · have := readLE_length h; simp at this ⊢; omega
    · split at h
      · have := readLE_length h; simp at this ⊢; omega
      · split at h
        · have := readLE_length h; simp at this ⊢; omega
        · injection h with h'
          injection h' with h1 h2
          subst h2; simp

theorem deser_string_length {s k rest : Bytes}
    (h : deser_string s = some (k, rest)) : rest.length + k.length < s.length := by
  unfold deser_string at h
  cases hc : deser_compact_size s with
  | none => rw [hc] at h; simp at h
  | some p =>
    rw [hc] at h
    obtain ⟨n, r⟩ := p
    simp only [Option.bind_eq_bind, Option.some_bind] at h
    have h1 := deser_compact_size_length hc
    have h2 := readBytes_length h
    omega

theorem deser_uint256_ser {u : Nat} (h : u < 2 ^ 256) (r : Bytes) :
    deser_uint256 (ser_uint256 u ++ r) = some (u, r) := by
  have key : ∀ (i : Nat) (u : Nat), u < 2 ^ (32 * i) → ∀ r,
      deser_uint256_limbs i (ser_uint256_limbs i u ++ r) = some (u, r) := by
    intro i
    induction i with
    | zero =>
      intro u hu r
      interval_cases u
      simp [ser_uint256_limbs, deser_uint256_limbs]
    | succ i ih =>
      intro u hu r
      have hmod : u % 2 ^ 32 < 256 ^ 4 := by
        have := Nat.mod_lt u (y := 2 ^ 32) (by norm_num)
        norm_num at this ⊢
        omega
      have hdiv : u / 2 ^ 32 < 2 ^ (32 * i) := by
        rw [Nat.div_lt_iff_lt_mul (by norm_num)]
        calc u < 2 ^ (32 * (i + 1)) := hu
          _ = 2 ^ (32 * i) * 2 ^ 32 := by rw [← pow_add]; ring_nf
      simp only [ser_uint256_limbs, deser_uint256_limbs, List.append_assoc,
        readLE_toLE hmod, Option.bind_eq_bind, Option.some_bind, ih _ hdiv]
      simp only [Option.some.injEq, Prod.mk.injEq, and_true]
      omega
  exact key 8 u (by norm_num at h ⊢; exact h) r

theorem deserInt32_ser {v : Int} (hlo : -(2 ^ 31) ≤ v) (hhi : v < 2 ^ 31) (r : Bytes) :
    deserInt32 (serInt32 v ++ r) = some (v, r) := by
  have hm : (v % 2 ^ 32).toNat < 256 ^ 4 := by
    have h1 : v % 2 ^ 32 < 2 ^ 32 := Int.emod_lt_of_pos v (by norm_num)
    have h2 : 0 ≤ v % 2 ^ 32 := Int.emod_nonneg v (by norm_num)
    norm_num at h1 ⊢
    omega
  simp only [serInt32, deserInt32, readLE_toLE hm, Option.map_some', Option.some.injEq,
    Prod.mk.injEq, and_true]
  split <;> omega

theorem deserInt64_ser {v : Int} (hlo : -(2 ^ 63) ≤ v) (hhi : v < 2 ^ 63) (r : Bytes) :
    deserInt64 (serInt64 v ++ r) = some (v, r) := by
  have hm : (v % 2 ^ 64).toNat < 256 ^ 8 := by
    have h1 : v % 2 ^ 64 < 2 ^ 64 := Int.emod_lt_of_pos v (by norm_num)
    have h2 : 0 ≤ v % 2 ^ 64 := Int.emod_nonneg v (by norm_num)
    norm_num at h1 ⊢
    omega
  simp only [serInt64, deserInt64, readLE_toLE hm, Option.map_some', Option.some.injEq,
    Prod.mk.injEq, and_true]
  split <;> omega

/-! ## Vector serialization -/

/-- Body of deser_vector of serializations.py: parse `n` consecutive
elements with the element parser `p`. -/
def deserCount {α : Type} (p : Bytes → Option (α × Bytes)) :
    Nat → Bytes → Option (List α × Bytes)
  | 0, s => some ([], s)
  | n + 1, s =>
    p s >>= fun x =>
      deserCount p n x.2 >>= fun xs => some (x.1 :: xs.1, xs.2)

/-- The function deser_vector of serializations.py: a VarInt count
followed by that many elements. -/
def deser_vector {α : Type} (p : Bytes → Option (α × Bytes)) (s : Bytes) :
    Option (List α × Bytes) :=
  deser_compact_size s >>= fun n => deserCount p n.1 n.2

/-- The function ser_vector of serializations.py: a VarInt count followed
by each element's serialization. -/
def ser_vector {α : Type} (ser : α → Bytes) (l : List α) : Bytes :=
  ser_compact_size l.length ++ l.flatMap ser

/-- The function ser_string_vector of serializations.py. -/
def ser_string_vector (l : List Bytes) : Bytes :=
  ser_compact_size l.length ++ l.flatMap ser_string

/-- The function deser_string_vector of serializations.py. -/
def deser_string_vector (s : Bytes) : Option (List Bytes × Bytes) :=
  deser_vector deser_string s

theorem deserCount_append {α : Type} {p : Bytes → Option (α × Bytes)}
    {ser : α → Bytes} {l : List α}
    (h : ∀ x ∈ l, ∀ r, p (ser x ++ r) = some (x, r)) (r : Bytes) :
    deserCount p l.length (l.flatMap ser ++ r) = some (l, r) := by
  induction l with
  | nil => simp [deserCount]
  | cons x xs ih =>
    simp only [List.length_cons, List.flatMap_cons, List.append_assoc, deserCount,
      h x (List.mem_cons_self x xs), Option.bind_eq_bind, Option.some_bind]
    rw [ih fun y hy r => h y (List.mem_cons_of_mem x hy) r]
    rfl

/-- Vector decoding inverts vector encoding, element by element. -/
theorem deser_vector_ser {α : Type} {p : Bytes → Option (α × Bytes)}
    {ser : α → Bytes} {l : List α} (hlen : l.length < 2 ^ 64)
    (h : ∀ x ∈ l, ∀ r, p (ser x ++ r) = some (x, r)) (r : Bytes) :
    deser_vector p (ser_vector ser l ++ r) = some (l, r) := by
  simp only [ser_vector, deser_vector, List.append_assoc, deser_compact_size_ser hlen,
    Option.bind_eq_bind, Option.some_bind]
  exact deserCount_append h r

/-! ## Transaction structures (COutPoint, CTxIn, CTxOut, witnesses,
CTransaction) -/

/-- The class COutPoint of serializations.py. -/
structure COutPoint where
  hash : Nat
  n : Nat
deriving DecidableEq, Repr

/-- COutPoint.serialize. -/
def COutPoint.serialize (o : COutPoint) : Bytes :=
  ser_uint256 o.hash ++ toLE 4 o.n

/-- COutPoint.deserialize. -/
def COutPoint.deserialize (s : Bytes) : Option (COutPoint × Bytes) :=
  deser_uint256 s >>= fun h =>
    readLE 4 h.2 >>= fun n => some (⟨h.1, n.1⟩, n.2)

/-- The class CTxIn of serializations.py. -/
structure CTxIn where
  prevout : COutPoint
  scriptSig : Bytes
  nSequence : Nat
deriving DecidableEq, Repr

/-- CTxIn.serialize. -/
def CTxIn.serialize (i : CTxIn) : Bytes :=
  i.prevout.serialize ++ ser_string i.scriptSig ++ toLE 4 i.nSequence

/-- CTxIn.deserialize. -/
def CTxIn.deserialize (s : Bytes) : Option (CTxIn × Bytes) :=
  COutPoint.deserialize s >>= fun p =>
    deser_string p.2 >>= fun sc =>
      readLE 4 sc.2 >>= fun sq => some (⟨p.1, sc.1, sq.1⟩, sq.2)

/-- The class CTxOut of serializations.py. -/
structure CTxOut where
  nValue : Int
  scriptPubKey : Bytes
deriving DecidableEq, Repr

/-- CTxOut.serialize. -/
def CTxOut.serialize (o : CTxOut) : Bytes :=
  serInt64 o.nValue ++ ser_string o.scriptPubKey

/-- CTxOut.deserialize. -/
def CTxOut.deserialize (s : Bytes) : Option (CTxOut × Bytes) :=
  deserInt64 s >>= fun v =>
    deser_string v.2 >>= fun sc => some (⟨v.1, sc.1⟩, sc.2)

/-- The function from_binary specialized to CTxOut: deserialize a bytes
object and require full consumption. -/
def CTxOut.from_binary (b : Bytes) : Option CTxOut :=
  match CTxOut.deserialize b with
  | some (o, []) => some o
  | _ => none

/-- The class CScriptWitness of serializations.py: a stack of byte
strings. -/
structure CScriptWitness where
  stack : List Bytes
deriving DecidableEq, Repr

/-- CScriptWitness.is_null. -/
def CScriptWitness.is_null (w : CScriptWitness) : Bool := w.stack.isEmpty

/-- The class CTxInWitness of serializations.py. -/
structure CTxInWitness where
  scriptWitness : CScriptWitness
deriving DecidableEq, Repr

/-- CTxInWitness.serialize. -/
def CTxInWitness.serialize (w : CTxInWitness) : Bytes :=
  ser_string_vector w.scriptWitness.stack

/-- CTxInWitness.deserialize. -/
def CTxInWitness.deserialize (s : Bytes) : Option (CTxInWitness × Bytes) :=
  deser_string_vector s >>= fun v => some (⟨⟨v.1⟩⟩, v.2)

/-- CTxInWitness.is_null. -/
def CTxInWitness.is_null (w : CTxInWitness) : Bool := w.scriptWitness.is_null

/-- CTxWitness.is_null of serializations.py (the vtxinwit list is held
directly). -/
def CTxWitness.is_null (ws : List CTxInWitness) : Bool :=
  ws.all fun w => w.is_null

/-- CTxWitness.serialize: each per-input witness back to back, with no
count prefix (its length is implicitly the input count). -/
def CTxWitness.serialize (ws : List CTxInWitness) : Bytes :=
  ws.flatMap CTxInWitness.serialize

/-- The class CTransaction of serializations.py. The sha256/hash fields
are a memoization cache recomputed from the other fields, and are not
modelled; the CTxWitness wrapper is held as its vtxinwit list. -/
structure CTransaction where
  nVersion : Int
  vin : List CTxIn
  vout : List CTxOut
  wit : List CTxInWitness
  nLockTime : Nat
deriving DecidableEq, Repr

/-- CTransaction.deserialize: after version and a VarInt, an empty input
list makes the next byte a segwit flag; inputs/outputs and witness data
are parsed only when that flag is non-zero, and the constructor defaults
(empty vout, empty witness) survive otherwise. -/
def CTransaction.deserialize (s : Bytes) : Option (CTransaction × Bytes) :=
  deserInt32 s >>= fun v =>
    deser_vector CTxIn.deserialize v.2 >>= fun vin0 =>
      if vin0.1.length = 0 then
        readLE 1 vin0.2 >>= fun flags =>
          if flags.1 ≠ 0 then
            deser_vector CTxIn.deserialize flags.2 >>= fun vin =>
              deser_vector CTxOut.deserialize vin.2 >>= fun vout =>
                deserCount CTxInWitness.deserialize vin.1.length vout.2 >>= fun wit =>
                  readLE 4 wit.2 >>= fun lt =>
                    some (⟨v.1, vin.1, vout.1, wit.1, lt.1⟩, lt.2)
          else
            readLE 4 flags.2 >>= fun lt =>
              some (⟨v.1, [], [], [], lt.1⟩, lt.2)
      else
        deser_vector CTxOut.deserialize vin0.2 >>= fun vout =>
          readLE 4 vout.2 >>= fun lt =>
            some (⟨v.1, vin0.1, vout.1, [], lt.1⟩, lt.2)

/-- The function from_binary specialized to CTransaction: deserialize a
bytes object and require full consumption. -/
def CTransaction.from_binary (b : Bytes) : Option CTransaction :=
  match CTransaction.deserialize b with
  | some (t, []) => some t
  | _ => none

/-- CTransaction.serialize_without_witness. -/
def CTransaction.serialize_without_witness (t : CTransaction) : Bytes :=
  serInt32 t.nVersion ++ ser_vector CTxIn.serialize t.vin ++
    ser_vector CTxOut.serialize t.vout ++ toLE 4 t.nLockTime

/-- CTransaction.serialize_with_witness. When the witness is non-null a
zero VarInt marker and the flag byte are emitted, and a witness list
whose length differs from the input count is truncated or padded with
null witnesses in place; the mutated transaction is returned alongside
the bytes. -/
def CTransaction.serialize_with_witness (t : CTransaction) : Bytes × CTransaction :=
  let flags : Nat := if CTxWitness.is_null t.wit then 0 else 1
  let wit' :=
    if flags = 1 ∧ t.wit.length ≠ t.vin.length then
      t.wit.take t.vin.length ++
        List.replicate (t.vin.length - t.wit.length) ⟨⟨[]⟩⟩
    else t.wit
  let r :=
    serInt32 t.nVersion ++
      (if flags ≠ 0 then ser_compact_size 0 ++ toLE 1 flags else []) ++
      ser_vector CTxIn.serialize t.vin ++
      ser_vector CTxOut.serialize t.vout ++
      (if flags ≠ 0 then CTxWitness.serialize wit' else []) ++
      toLE 4 t.nLockTime
  (r, { t with wit := wit' })

/-! ## Constructibility: the field ranges struct.pack accepts and Python
bytes objects guarantee -/

/-- Field ranges under which a COutPoint is serializable by struct.pack. -/
def COutPoint.wf (o : COutPoint) : Prop := o.hash < 2 ^ 256 ∧ o.n < 2 ^ 32

/-- Field ranges under which a CTxIn is serializable. -/
def CTxIn.wf (i : CTxIn) : Prop :=
  i.prevout.wf ∧ i.scriptSig.length < 2 ^ 64 ∧ i.nSequence < 2 ^ 32

/-- Field ranges under which a CTxOut is serializable. -/
def CTxOut.wf (o : CTxOut) : Prop :=
  -(2 ^ 63) ≤ o.nValue ∧ o.nValue < 2 ^ 63 ∧ o.scriptPubKey.length < 2 ^ 64

/-- Field ranges under which a CTransaction is serializable. -/
def CTransaction.wf (t : CTransaction) : Prop :=
  -(2 ^ 31) ≤ t.nVersion ∧ t.nVersion < 2 ^ 31 ∧
    (∀ i ∈ t.vin, i.wf) ∧ (∀ o ∈ t.vout, o.wf) ∧
    t.nLockTime < 2 ^ 32 ∧ t.vin.length < 2 ^ 64 ∧ t.vout.length < 2 ^ 64

instance (o : COutPoint) : Decidable o.wf := by unfold COutPoint.wf; infer_instance

instance (i : CTxIn) : Decidable i.wf := by unfold CTxIn.wf; infer_instance

instance (o : CTxOut) : Decidable o.wf := by unfold CTxOut.wf; infer_instance

instance (t : CTransaction) : Decidable t.wf := by
  unfold CTransaction.wf; infer_instance

/-! ## Element round-trips -/

theorem outpoint_deserialize_serialize {o : COutPoint} (h : o.wf) (r : Bytes) :
    COutPoint.deserialize (o.serialize ++ r) = some (o, r) := by
  obtain ⟨h1, h2⟩ := h
  simp only [COutPoint.serialize, COutPoint.deserialize, List.append_assoc,
    deser_uint256_ser h1, Option.bind_eq_bind, Option.some_bind,
    readLE_toLE (show o.n < 256 ^ 4 by norm_num at h2 ⊢; omega)]

theorem txin_deserialize_serialize {i : CTxIn} (h : i.wf) (r : Bytes) :
    CTxIn.deserialize (i.serialize ++ r) = some (i, r) := by
  obtain ⟨h1, h2, h3⟩ := h
  simp only [CTxIn.serialize, CTxIn.deserialize, List.append_assoc,
    outpoint_deserialize_serialize h1, Option.bind_eq_bind, Option.some_bind,
    deser_string_ser h2, readLE_toLE (show i.nSequence < 256 ^ 4 by norm_num at h3 ⊢; omega)]

theorem txout_deserialize_serialize {o : CTxOut} (h : o.wf) (r : Bytes) :
    CTxOut.deserialize (o.serialize ++ r) = some (o, r) := by
  obtain ⟨h1, h2, h3⟩ := h
  simp only [CTxOut.serialize, CTxOut.deserialize, List.append_assoc,
    deserInt64_ser h1 h2, Option.bind_eq_bind, Option.some_bind, deser_string_ser h3]

/-- Deserializing a non-witness serialization succeeds and reproduces
version, inputs, outputs and locktime (with the empty default witness),
provided the transaction has at least one input or no outputs; the
encoding of an inputless transaction with outputs is misread through the
segwit-flag path. -/
theorem ctransaction_deserialize_serialize {t : CTransaction} (h : t.wf)
    (hshape : t.vin ≠ [] ∨ t.vout = []) (r : Bytes) :
    CTransaction.deserialize (t.serialize_without_witness ++ r) =
      some (⟨t.nVersion, t.vin, t.vout, [], t.nLockTime⟩, r) := by
  obtain ⟨h1, h2, h3, h4, h5, h6, h7⟩ := h
  have hlock : t.nLockTime < 256 ^ 4 := by norm_num at h5 ⊢; omega
  have hvin := @deser_vector_ser CTxIn CTxIn.deserialize CTxIn.serialize t.vin
    h6 (fun x hx r => txin_deserialize_serialize (h3 x hx) r)
  have hvout := @deser_vector_ser CTxOut CTxOut.deserialize CTxOut.serialize t.vout
    h7 (fun x hx r => txout_deserialize_serialize (h4 x hx) r)
  rcases hshape with hne | hempty
  · simp only [CTransaction.serialize_without_witness, CTransaction.deserialize,
      List.append_assoc, deserInt32_ser h1 h2, Option.bind_eq_bind, Option.some_bind,
      hvin, hvout, readLE_toLE hlock]
    have : t.vin.length ≠ 0 := by
      simpa [List.length_eq_zero] using hne
    simp [this]
  · rcases hvin0 : t.vin with _ | ⟨i0, vin'⟩
    · simp only [CTransaction.serialize_without_witness, CTransaction.deserialize,
        hvin0, hempty, List.append_assoc]
      simp only [ser_vector, List.length_nil, List.flatMap_nil, List.append_nil,
        ser_compact_size]
      norm_num
      simp only [deserInt32_ser h1 h2, Option.bind_eq_bind, Option.some_bind]
      have hz : deser_vector CTxIn.deserialize
          (0 :: (0 :: (toLE 4 t.nLockTime ++ r))) = some ([], 0 :: (toLE 4 t.nLockTime ++ r)) := by
        simp [deser_vector, deser_compact_size, deserCount]
      simp only [List.cons_append, hz, Option.some_bind]
      have hflag : readLE 1 (0 :: (toLE 4 t.nLockTime ++ r)) =
          some (0, toLE 4 t.nLockTime ++ r) := by
        simp [readLE, readBytes, fromLE]
      simp [hflag, readLE_toLE hlock]
    · simp only [CTransaction.serialize_without_witness, CTransaction.deserialize,
        List.append_assoc, deserInt32_ser h1 h2, Option.bind_eq_bind, Option.some_bind,
        hvin, hvout, readLE_toLE hlock]
      simp [hvin0]

/-! ## SHA-256 (the hashlib primitive used by the codec), over byte lists
with 32-bit words as naturals reduced mod 2^32 -/

/-- 32-bit right rotation. -/
def rotr32 (x n : Nat) : Nat :=
  ((x >>> n) ||| (x <<< (32 - n))) % 2 ^ 32

/-- The SHA-256 round constants. -/
def sha256K : List Nat :=
  [1116352408, 1899447441, 3049323471, 3921009573, 961987163, 1508970993,
   2453635748, 2870763221, 3624381080, 310598401, 607225278, 1426881987,
   1925078388, 2162078206, 2614888103, 3248222580, 3835390401, 4022224774,
   264347078, 604807628, 770255983, 1249150122, 1555081692, 1996064986,
   2554220882, 2821834349, 2952996808, 3210313671, 3336571891, 3584528711,
   113926993, 338241895, 666307205, 773529912, 1294757372, 1396182291,
   1695183700, 1986661051, 2177026350, 2456956037, 2730485921, 2820302411,
   3259730800, 3345764771, 3516065817, 3600352804, 4094571909, 275423344,
   430227734, 506948616, 659060556, 883997877, 958139571, 1322822218,
   1537002063, 1747873779, 1955562222, 2024104815, 2227730452, 2361852424,
   2428436474, 2756734187, 3204031479, 3329325298]

/-- The SHA-256 working state: eight 32-bit words. -/
structure Sha256State where
  a : Nat
  b : Nat
  c : Nat
  d : Nat
  e : Nat
  f : Nat
  g : Nat
  h : Nat
deriving DecidableEq, Repr

/-- The SHA-256 initial hash value. -/
def sha256Init : Sha256State :=
  ⟨1779033703, 3144134277, 1013904242, 2773480762,
   1359893119, 2600822924, 528734635, 1541459225⟩

/-- Extend a message schedule by one word. -/
def sha256Extend (w : List Nat) : List Nat :=
  let n := w.length
  let s0 :=
    rotr32 (w.getD (n - 15) 0) 7 ^^^ rotr32 (w.getD (n - 15) 0) 18 ^^^
      (w.getD (n - 15) 0 >>> 3)
  let s1 :=
    rotr32 (w.getD (n - 2) 0) 17 ^^^ rotr32 (w.getD (n - 2) 0) 19 ^^^
      (w.getD (n - 2) 0 >>> 10)
  w ++ [(w.getD (n - 16) 0 + s0 + w.getD (n - 7) 0 + s1) % 2 ^ 32]

/-- The 64-word message schedule of a 16-word block. -/
def sha256Schedule (block : List Nat) : List Nat :=
  (List.range 48).foldl (fun w _ => sha256Extend w) block

/-- One SHA-256 compression round. -/
def sha256Round (st : Sha256State) (kw : Nat × Nat) : Sha256State :=
  let S1 := rotr32 st.e 6 ^^^ rotr32 st.e 11 ^^^ rotr32 st.e 25
  let ch := (st.e &&& st.f) ^^^ ((st.e ^^^ 0xFFFFFFFF) &&& st.g)
  let t1 := (st.h + S1 + ch + kw.1 + kw.2) % 2 ^ 32
  let S0 := rotr32 st.a 2 ^^^ rotr32 st.a 13 ^^^ rotr32 st.a 22
  let mj := (st.a &&& st.b) ^^^ (st.a &&& st.c) ^^^ (st.b &&& st.c)
  let t2 := (S0 + mj) % 2 ^ 32
  ⟨(t1 + t2) % 2 ^ 32, st.a, st.b, st.c, (st.d + t1) % 2 ^ 32, st.e, st.f, st.g⟩

/-- Compress one 16-word block into the running state. -/
def sha256Compress (st : Sha256State) (block : List Nat) : Sha256State :=
  let w := sha256Schedule block
  let fs := (sha256K.zip w).foldl sha256Round st
  ⟨(st.a + fs.a) % 2 ^ 32, (st.b + fs.b) % 2 ^ 32, (st.c + fs.c) % 2 ^ 32,
   (st.d + fs.d) % 2 ^ 32, (st.e + fs.e) % 2 ^ 32, (st.f + fs.f) % 2 ^ 32,
   (st.g + fs.g) % 2 ^ 32, (st.h + fs.h) % 2 ^ 32⟩

/-- SHA-256 padding: a 0x80 byte, zeros to 56 mod 64, and the bit length
as a big-endian 64-bit integer. -/
def sha256Pad (msg : Bytes) : Bytes :=
  msg ++ [0x80] ++ List.replicate ((119 - msg.length % 64) % 64) 0 ++
    (toLE 8 (8 * msg.length)).reverse

/-- Big-endian 32-bit words from a byte stream. -/
def bytesToWordsBE : Bytes → List Nat
  | b0 :: b1 :: b2 :: b3 :: rest =>
    (b0 <<< 24 ||| b1 <<< 16 ||| b2 <<< 8 ||| b3) :: bytesToWordsBE rest
  | _ => []

/-- Group a word stream into 16-word blocks (padding always yields a
multiple of 16 words, so the incomplete-block case is dead). -/
def groupWords : List Nat → List (List Nat)
  | w0 :: w1 :: w2 :: w3 :: w4 :: w5 :: w6 :: w7 ::
      w8 :: w9 :: w10 :: w11 :: w12 :: w13 :: w14 :: w15 :: rest =>
    [w0, w1, w2, w3, w4, w5, w6, w7, w8, w9, w10, w11, w12, w13, w14, w15] ::
      groupWords rest
  | _ => []

/-- A 32-bit word as four big-endian bytes. -/
def wordBE (w : Nat) : Bytes :=
  [w >>> 24 % 256, w >>> 16 % 256, w >>> 8 % 256, w % 256]

/-- The function sha256 of serializations.py (hashlib's SHA-256). -/
def sha256 (msg : Bytes) : Bytes :=
  let st := (groupWords (bytesToWordsBE (sha256Pad msg))).foldl sha256Compress sha256Init
  wordBE st.a ++ wordBE st.b ++ wordBE st.c ++ wordBE st.d ++
    wordBE st.e ++ wordBE st.f ++ wordBE st.g ++ wordBE st.h

/-- The function hash256 of serializations.py: double SHA-256. -/
def hash256 (s : Bytes) : Bytes := sha256 (sha256 s)

theorem sha256_length (msg : Bytes) : (sha256 msg).length = 32 := by
  simp [sha256, wordBE]

theorem hash256_length (s : Bytes) : (hash256 s).length = 32 := by
  simp [hash256, sha256_length]

/-- CTransaction.txid: the little-endian uint256 read from the double
SHA-256 of the non-witness serialization, re-serialized and reversed to
display order. -/
def CTransaction.txid (t : CTransaction) : Bytes :=
  (ser_uint256 (uint256_from_str (hash256 t.serialize_without_witness))).reverse

/-! ## Claim C7: VarInt boundary values -/

/-- C7: for each boundary value n in {0, 252, 253, 65535, 65536, 2^32-1,
2^32, 2^64-1}, decoding the VarInt encoding of n returns n and consumes
exactly the encoded bytes (any tail r is left untouched), and the
encoding has the prescribed shape: 1 byte below 253, 0xFD + 2-byte LE up
to 0xFFFF, 0xFE + 4-byte LE up to 2^32-1, 0xFF + 8-byte LE above. -/
theorem varint_boundaries_roundtrip (r : Bytes) :
    (deser_compact_size (ser_compact_size 0 ++ r) = some (0, r) ∧
      ser_compact_size 0 = [0]) ∧
    (deser_compact_size (ser_compact_size 252 ++ r) = some (252, r) ∧
      ser_compact_size 252 = [252]) ∧
    (deser_compact_size (ser_compact_size 253 ++ r) = some (253, r) ∧
      ser_compact_size 253 = [253, 253, 0]) ∧
    (deser_compact_size (ser_compact_size 65535 ++ r) = some (65535, r) ∧
      ser_compact_size 65535 = [253, 255, 255]) ∧
    (deser_compact_size (ser_compact_size 65536 ++ r) = some (65536, r) ∧
      ser_compact_size 65536 = [254, 0, 0, 1, 0]) ∧
    (deser_compact_size (ser_compact_size (2 ^ 32 - 1) ++ r) = some (2 ^ 32 - 1, r) ∧
      ser_compact_size (2 ^ 32 - 1) = [254, 255, 255, 255, 255]) ∧
    (deser_compact_size (ser_compact_size (2 ^ 32) ++ r) = some (2 ^ 32, r) ∧
      ser_compact_size (2 ^ 32) = [255, 0, 0, 0, 0, 1, 0, 0, 0]) ∧
    (deser_compact_size (ser_compact_size (2 ^ 64 - 1) ++ r) = some (2 ^ 64 - 1, r) ∧
      ser_compact_size (2 ^ 64 - 1) = 255 :: List.replicate 8 255) := by
  refine ⟨⟨deser_compact_size_ser (by norm_num) r, by decide⟩,
    ⟨deser_compact_size_ser (by norm_num) r, by decide⟩,
    ⟨deser_compact_size_ser (by norm_num) r, by decide⟩,
    ⟨deser_compact_size_ser (by norm_num) r, by decide⟩,
    ⟨deser_compact_size_ser (by norm_num) r, by decide⟩,
    ⟨deser_compact_size_ser (by norm_num) r, by decide⟩,
    ⟨deser_compact_size_ser (by norm_num) r, by decide⟩,
    ⟨deser_compact_size_ser (by norm_num) r, by decide⟩⟩

/-! ## Claim C4: the concrete 1-input/1-output transaction -/

/-- The transaction of the concrete scenario: version 2, one input
spending output 0 of the all-zero txid with empty scriptSig and sequence
0xFFFFFFFF, one output of 100000 satoshis to a 22-byte P2WPKH-style
script, locktime 0, empty witness. -/
def scenarioTx : CTransaction :=
  { nVersion := 2
    vin := [⟨⟨0, 0⟩, [], 0xFFFFFFFF⟩]
    vout := [⟨100000, [0x00, 0x14, 0, 1, 2, 3, 4, 5, 6, 7, 8, 9, 10, 11, 12,
      13, 14, 15, 16, 17, 18, 19]⟩]
    wit := []
    nLockTime := 0 }

/-- C4 (counterexample): the non-witness serialization of the scenario
transaction has 82 bytes, not the 51 the claim asserts. -/
theorem scenarioTx_not_51_bytes :
    scenarioTx.serialize_without_witness.length = 82 ∧
      scenarioTx.serialize_without_witness.length ≠ 51 := by
  constructor <;> decide

set_option maxRecDepth 40000 in
/-- C4 (amended): the scenario transaction serializes without witness to
exactly 82 bytes, and its txid (double SHA-256 of that serialization,
byte-reversed) is the fixed reproducible digest pinned here. -/
theorem scenarioTx_length_and_txid :
    scenarioTx.serialize_without_witness.length = 82 ∧
      scenarioTx.txid =
        [90, 194, 159, 153, 251, 131, 106, 23, 100, 63, 147, 196, 202,
         194, 157, 162, 201, 100, 87, 83, 161, 110, 204, 192, 75, 159, 102,
         192, 156, 13, 215, 49] := by
  constructor <;> decide

/-! ## Claim C2: transaction round-trip without witness -/

/-- The inputless but not outputless transaction on which the unrestricted
round-trip claim fails. -/
def inputlessTx : CTransaction :=
  { nVersion := 1, vin := [], vout := [⟨0, []⟩], wit := [], nLockTime := 0 }

/-- C2 (counterexample): the no-witness round-trip quantifier does not
cover every constructible witnessless transaction: for a transaction with
no inputs but one output the serialized zero input count is misread as a
segwit marker and the decoder returns an empty output list, so the
decoded transaction differs from the original. -/
theorem inputlessTx_roundtrip_fails :
    CTxWitness.is_null inputlessTx.wit = true ∧
      (CTransaction.deserialize inputlessTx.serialize_without_witness).map
          (fun p => p.1.vout) = some [] ∧
      inputlessTx.vout ≠ [] := by
  refine ⟨rfl, by decide, by decide⟩

/-- C2 (amended): for every constructible witnessless transaction that
has at least one input or no outputs, deserializing the non-witness
serialization consumes it fully and reproduces the version, inputs,
outputs and locktime. -/
theorem tx_roundtrip_without_witness {t : CTransaction} (h : t.wf)
    (hnull : CTxWitness.is_null t.wit = true)
    (hshape : t.vin ≠ [] ∨ t.vout = []) :
    CTransaction.deserialize t.serialize_without_witness =
      some (⟨t.nVersion, t.vin, t.vout, [], t.nLockTime⟩, []) := by
  have := ctransaction_deserialize_serialize h hshape []
  simpa using this

/-- C2 (amended, witness): the amended round-trip at a concrete one-input
one-output transaction. -/
theorem tx_roundtrip_without_witness_example :
    scenarioTx.wf ∧ CTxWitness.is_null scenarioTx.wit = true ∧
      (scenarioTx.vin ≠ [] ∨ scenarioTx.vout = []) ∧
      CTransaction.deserialize scenarioTx.serialize_without_witness =
        some (⟨scenarioTx.nVersion, scenarioTx.vin, scenarioTx.vout, [],
          scenarioTx.nLockTime⟩, []) :=
  ⟨by decide, by decide, Or.inl (by decide),
    tx_roundtrip_without_witness (by decide) (by decide) (Or.inl (by decide))⟩

/-! ## Claim C5: the zero segwit flag byte -/

/-- C5 (counterexample): on a stream whose input-count VarInt is zero and
whose following flag byte is zero, CTransaction.deserialize does not fail
with any error: it succeeds, returning the empty transaction with the
next four bytes as locktime. -/
theorem zero_flag_deserialize_succeeds :
    CTransaction.deserialize [1, 0, 0, 0, 0, 0, 7, 0, 0, 0] =
      some (⟨1, [], [], [], 7⟩, []) := by
  decide

/-- C5 (amended): for every stream consisting of a 4-byte version, a zero
VarInt, a zero flag byte and at least four further bytes, deserialization
succeeds with empty inputs, outputs and witness, reading the locktime
from the four bytes after the flag; input/output lists and witness data
are parsed only under a non-zero flag. -/
theorem zero_flag_deserialize {v4 l4 : Bytes} (hv : v4.length = 4)
    (hl : l4.length = 4) (rest : Bytes) :
    CTransaction.deserialize (v4 ++ 0 :: 0 :: (l4 ++ rest)) =
      some (⟨if fromLE v4 < 2 ^ 31 then (fromLE v4 : Int)
             else (fromLE v4 : Int) - 2 ^ 32, [], [], [], fromLE l4⟩, rest) := by
  have hver : deserInt32 (v4 ++ 0 :: 0 :: (l4 ++ rest)) =
      some (if fromLE v4 < 2 ^ 31 then (fromLE v4 : Int)
            else (fromLE v4 : Int) - 2 ^ 32, 0 :: 0 :: (l4 ++ rest)) := by
    simp [deserInt32, readLE_append hv]
  have hvin : deser_vector CTxIn.deserialize (0 :: 0 :: (l4 ++ rest)) =
      some ([], 0 :: (l4 ++ rest)) := by
    simp [deser_vector, deser_compact_size, deserCount]
  have hflag : readLE 1 (0 :: (l4 ++ rest)) = some (0, l4 ++ rest) := by
    simp [readLE, readBytes, fromLE]
  simp [CTransaction.deserialize, hver, hvin, hflag, readLE_append hl]

/-- C5 (amended, witness): the amended statement at a concrete stream. -/
theorem zero_flag_deserialize_example :
    ([1, 0, 0, 0] : Bytes).length = 4 ∧ ([9, 0, 0, 0] : Bytes).length = 4 ∧
      CTransaction.deserialize ([1, 0, 0, 0] ++ 0 :: 0 :: ([9, 0, 0, 0] ++ [5])) =
        some (⟨if fromLE [1, 0, 0, 0] < 2 ^ 31 then (fromLE [1, 0, 0, 0] : Int)
               else (fromLE [1, 0, 0, 0] : Int) - 2 ^ 32, [], [], [],
               fromLE [9, 0, 0, 0]⟩, [5]) :=
  ⟨rfl, rfl, zero_flag_deserialize (by decide) (by decide) [5]⟩

/-! ## PSBT keyed maps. A Python dict preserves insertion order, so a map
is an association list with (invariantly) distinct keys; a value is
either a scalar byte string (1-byte wire key) or a nested per-key-data
map (multi-byte wire key). -/

/-- A value of a PSBTMap entry: scalar, or a nested key-data map. -/
inductive PSBTVal where
  | scalar : Bytes → PSBTVal
  | sub : List (Bytes × Bytes) → PSBTVal
deriving DecidableEq, Repr

/-- The map field of the class PSBTMap of serializations.py. -/
abbrev PSBTMapT := List (Nat × PSBTVal)

/-- Overwrite-or-append assignment on a nested key-data map (Python dict
item assignment: an existing key keeps its position, a new one is
appended). -/
def assocSet : List (Bytes × Bytes) → Bytes → Bytes → List (Bytes × Bytes)
  | [], k, v => [(k, v)]
  | e :: rest, k, v =>
    if e.1 = k then (k, v) :: rest else e :: assocSet rest k v

/-- Insertion of a scalar (1-byte) key during PSBTMap.deserialize; the
source asserts the key is not already present. -/
def mapInsertScalar (m : PSBTMapT) (k : Nat) (v : Bytes) : Option PSBTMapT :=
  if (m.lookup k).isSome then none else some (m ++ [(k, .scalar v)])

/-- Replace the value stored at a type byte, keeping its position. -/
def mapSetSub : PSBTMapT → Nat → List (Bytes × Bytes) → PSBTMapT
  | [], _, _ => []
  | e :: rest, t, l =>
    if e.1 = t then (t, .sub l) :: rest else e :: mapSetSub rest t l

/-- Insertion of a multi-byte key during PSBTMap.deserialize: a fresh
type byte starts a nested map, an existing nested map is assigned into
(a later duplicate key-data silently overwrites), and assigning into a
scalar is a Python type error. -/
def mapInsertSub (m : PSBTMapT) (t : Nat) (kd v : Bytes) : Option PSBTMapT :=
  match m.lookup t with
  | none => some (m ++ [(t, .sub [(kd, v)])])
  | some (.sub l) => some (mapSetSub m t (assocSet l kd v))
  | some (.scalar _) => none

/-- One parsed wire entry into the accumulating map. -/
def insertPair (m : PSBTMapT) (e : Bytes × Bytes) : Option PSBTMapT :=
  match e.1 with
  | [t] => mapInsertScalar m t e.2
  | t :: kd => mapInsertSub m t kd e.2
  | [] => none

/-- The loop of PSBTMap.deserialize, with fuel so that the recursion is
structural (each iteration consumes at least two stream bytes, so fuel
exceeding the stream length suffices). -/
def PSBTMap.deserializeFuel : Nat → PSBTMapT → Bytes → Option (PSBTMapT × Bytes)
  | 0, _, _ => none
  | fuel + 1, m, s =>
    deser_string s >>= fun k =>
      if k.1 = [] then some (m, k.2)
      else
        deser_string k.2 >>= fun v =>
          insertPair m (k.1, v.1) >>= fun m' =>
            PSBTMap.deserializeFuel fuel m' v.2

/-- PSBTMap.deserialize of serializations.py: read key/value pairs until
a zero-length key. -/
def PSBTMap.deserialize (s : Bytes) : Option (PSBTMapT × Bytes) :=
  PSBTMap.deserializeFuel (s.length + 1) [] s

/-- Ordered insertion by key type. -/
def keyInsert (e : Nat × PSBTVal) : PSBTMapT → PSBTMapT
  | [] => [e]
  | f :: rest => if e.1 ≤ f.1 then e :: f :: rest else f :: keyInsert e rest

/-- Insertion sort by key type, modelling Python sorted() over the dict
keys (keys are distinct, so stability is irrelevant). -/
def sortKeys : PSBTMapT → PSBTMapT
  | [] => []
  | e :: rest => keyInsert e (sortKeys rest)

/-- The wire key/value pairs of one map entry: a scalar flattens to its
single-byte key, a nested map to one pair per key-data. -/
def entryPairs (k : Nat) : PSBTVal → List (Bytes × Bytes)
  | .scalar v => [([k], v)]
  | .sub l => l.map fun kv => (k :: kv.1, kv.2)

/-- All wire key/value pairs of a map, in entry order. -/
def wireEntries (m : PSBTMapT) : List (Bytes × Bytes) :=
  m.flatMap fun e => entryPairs e.1 e.2

/-- One wire pair as bytes: length-prefixed key then length-prefixed
value. -/
def encPair (e : Bytes × Bytes) : Bytes := ser_string e.1 ++ ser_string e.2

/-- PSBTMap.serialize of serializations.py: key types in ascending sorted
order, nested maps re-flattened, then the zero-length terminator. A key
type outside the byte range is a Python type error. -/
def PSBTMap.serialize (m : PSBTMapT) : Option Bytes :=
  if ∀ e ∈ m, e.1 ≤ 255 then
    some ((wireEntries (sortKeys m)).flatMap encPair ++ [0])
  else none

/-! ## The PSBT container -/

/-- The 5-byte PSBT magic. -/
def psbtMagic : Bytes := [0x70, 0x73, 0x62, 0x74, 0xFF]

/-- The class PSBT of serializations.py. The tx field is None on
construction and set by deserialize. -/
structure PSBT where
  g : PSBTMapT
  i : List PSBTMapT
  o : List PSBTMapT
  tx : Option CTransaction
deriving DecidableEq, Repr

/-- The errors of the PSBT decoding path: a magic mismatch, a global map
without key 0, or any other parse failure. -/
inductive PsbtError where
  | invalidMagic
  | missingUnsignedTx
  | malformed
deriving DecidableEq, Repr

/-- Parse `n` consecutive keyed maps. -/
def PSBT.deserializeMaps : Nat → Bytes → Option (List PSBTMapT × Bytes)
  | 0, s => some ([], s)
  | n + 1, s =>
    PSBTMap.deserialize s >>= fun m =>
      PSBT.deserializeMaps n m.2 >>= fun ms => some (m.1 :: ms.1, ms.2)

/-- PSBT.deserialize of serializations.py: check the magic, read the
global map, require key 0, recover the unsigned transaction from it, and
read one map per transaction input and one per output. -/
def PSBT.deserialize (b : Bytes) : Except PsbtError (PSBT × Bytes) :=
  if b.take 5 = psbtMagic then
    match PSBTMap.deserialize (b.drop 5) with
    | none => .error .malformed
    | some (g, s) =>
      match g.lookup 0 with
      | none => .error .missingUnsignedTx
      | some (.sub _) => .error .malformed
      | some (.scalar txb) =>
        match CTransaction.from_binary txb with
        | none => .error .malformed
        | some tx =>
          match PSBT.deserializeMaps tx.vin.length s with
          | none => .error .malformed
          | some (im, s1) =>
            match PSBT.deserializeMaps tx.vout.length s1 with
            | none => .error .malformed
            | some (om, s2) =>
              .ok ({ g := g, i := im, o := om, tx := some tx }, s2)
  else .error .invalidMagic

/-- The function from_binary specialized to PSBT: deserialize a bytes
object and require full consumption. -/
def PSBT.from_binary (b : Bytes) : Option PSBT :=
  match PSBT.deserialize b with
  | .ok (p, []) => some p
  | _ => none

/-- PSBT.serialize of serializations.py: require global key 0, reparse
the unsigned transaction, require one input map per transaction input
and one output map per output, then emit the magic followed by every map
in order. -/
def PSBT.serialize (p : PSBT) : Option Bytes :=
  match p.g.lookup 0 with
  | some (.scalar txb) =>
    match CTransaction.from_binary txb with
    | some tx =>
      if tx.vin.length = p.i.length ∧ tx.vout.length = p.o.length then
        (List.mapM PSBTMap.serialize (p.g :: (p.i ++ p.o))).map fun bs =>
          psbtMagic ++ bs.flatten
      else none
    | none => none
  | _ => none

/-- PSBT.make_blank of serializations.py: clear every input and output
map and rebuild the global map with only key 0 (a missing key 0 is a
Python KeyError). -/
def PSBT.make_blank (p : PSBT) : Option PSBT :=
  match p.g.lookup 0 with
  | some v =>
    some { g := [(0, v)], i := p.i.map fun _ => ([] : PSBTMapT),
           o := p.o.map fun _ => ([] : PSBTMapT), tx := p.tx }
  | none => none

/-! ## Base64 transport. Modelled from the spec: to_base64/from_base64
wrap Python's standard base64.b64encode/b64decode (RFC 4648 with
padding), which are not part of the repository sources. -/

/-- Modelled from the spec: the standard base64 alphabet, as the ASCII
code of sextet `i`. -/
def b64Char (i : Nat) : Nat :=
  if i < 26 then 65 + i
  else if i < 52 then 97 + (i - 26)
  else if i < 62 then 48 + (i - 52)
  else if i = 62 then 43
  else 47

/-- Modelled from the spec: base64-encode a byte string, three bytes to
four characters, with trailing padding. -/
def b64Encode : Bytes → Bytes
  | [] => []
  | [a] => [b64Char (a / 4), b64Char (a % 4 * 16), 61, 61]
  | [a, b] =>
    [b64Char (a / 4), b64Char (a % 4 * 16 + b / 16), b64Char (b % 16 * 4), 61]
  | a :: b :: c :: rest =>
    b64Char (a / 4) :: b64Char (a % 4 * 16 + b / 16) ::
      b64Char (b % 16 * 4 + c / 64) :: b64Char (c % 64) :: b64Encode rest

/-- Modelled from the spec: the sextet of a base64 alphabet character. -/
def b64Sextet (c : Nat) : Option Nat :=
  if 65 ≤ c ∧ c ≤ 90 then some (c - 65)
  else if 97 ≤ c ∧ c ≤ 122 then some (c - 97 + 26)
  else if 48 ≤ c ∧ c ≤ 57 then some (c - 48 + 52)
  else if c = 43 then some 62
  else if c = 47 then some 63
  else none

/-- Modelled from the spec: base64-decode a correctly padded character
string, four characters to three bytes. -/
def b64Decode : Bytes → Option Bytes
  | [] => some []
  | c1 :: c2 :: c3 :: c4 :: rest =>
    b64Sextet c1 >>= fun s1 =>
      b64Sextet c2 >>= fun s2 =>
        if c3 = 61 ∧ c4 = 61 ∧ rest = [] then
          some [s1 * 4 + s2 / 16]
        else
          b64Sextet c3 >>= fun s3 =>
            if c4 = 61 ∧ rest = [] then
              some [s1 * 4 + s2 / 16, s2 % 16 * 16 + s3 / 4]
            else
              b64Sextet c4 >>= fun s4 =>
                (b64Decode rest).map fun tail =>
                  (s1 * 4 + s2 / 16) :: (s2 % 16 * 16 + s3 / 4) ::
                    (s3 % 4 * 64 + s4) :: tail
  | _ => none

/-- PSBT.to_base64 of serializations.py. -/
def PSBT.to_base64 (p : PSBT) : Option Bytes :=
  (PSBT.serialize p).map b64Encode

/-- PSBT.from_base64 of serializations.py. -/
def PSBT.from_base64 (s : Bytes) : Option PSBT :=
  b64Decode s >>= PSBT.from_binary

/-! ## The BIP143 sighash engine -/

/-- The key type PSBT_IN_WITNESS_UTXO of serializations.py. -/
def PSBT_IN_WITNESS_UTXO : Nat := 0x01

/-- The BIP143 preimage assembled by sighash_all_witness of
serializations.py, before the final double SHA-256. The function is
defined when the PSBT holds a transaction, the input index is in range,
and the input map holds a parseable witness UTXO. -/
def sighashPreimage (script_code : Bytes) (p : PSBT) (i : Nat) (acp : Bool) :
    Option Bytes :=
  match p.tx with
  | none => none
  | some tx =>
    match tx.vin.get? i, p.i.get? i with
    | some txin, some imap =>
      match imap.lookup PSBT_IN_WITNESS_UTXO with
      | some (.scalar utxo) =>
        match CTxOut.from_binary utxo with
        | some prev_txo =>
          let hashPrevouts :=
            if acp then List.replicate 32 0
            else hash256 (tx.vin.flatMap fun inp => inp.prevout.serialize)
          let hashSequence :=
            if acp then List.replicate 32 0
            else hash256 (tx.vin.flatMap fun inp => toLE 4 inp.nSequence)
          let hashOutputs := hash256 (tx.vout.flatMap CTxOut.serialize)
          let sighash_type : Bytes :=
            if acp then [0x81, 0x00, 0x00, 0x00] else [0x01, 0x00, 0x00, 0x00]
          some (serInt32 tx.nVersion ++ hashPrevouts ++ hashSequence ++
            txin.prevout.serialize ++ ser_string script_code ++
            serInt64 prev_txo.nValue ++ toLE 4 txin.nSequence ++
            hashOutputs ++ toLE 4 tx.nLockTime ++ sighash_type)
        | none => none
      | _ => none
    | _, _ => none

/-- The function sighash_all_witness of serializations.py: the double
SHA-256 of the BIP143 preimage. -/
def sighash_all_witness (script_code : Bytes) (p : PSBT) (i : Nat)
    (acp : Bool) : Option Bytes :=
  (sighashPreimage script_code p i acp).map hash256

/-! ## Claim C6: PSBT magic and missing unsigned transaction -/

/-- C6: a buffer with the correct magic whose global map parses but lacks
key 0 fails with MissingUnsignedTx and never yields a Psbt, and a buffer
whose first five bytes are not the magic fails with InvalidMagic. -/
theorem psbt_deserialize_errors :
    (∀ (b : Bytes) (g : PSBTMapT) (s : Bytes), b.take 5 = psbtMagic →
      PSBTMap.deserialize (b.drop 5) = some (g, s) → g.lookup 0 = none →
      PSBT.deserialize b = .error .missingUnsignedTx ∧
        ∀ q, PSBT.deserialize b ≠ .ok q) ∧
    (∀ b : Bytes, b.take 5 ≠ psbtMagic →
      PSBT.deserialize b = .error .invalidMagic) := by
  constructor
  · intro b g s hmagic hmap hnokey
    have : PSBT.deserialize b = .error .missingUnsignedTx := by
      unfold PSBT.deserialize
      rw [if_pos hmagic, hmap]
      simp [hnokey]
    exact ⟨this, fun q hq => by rw [this] at hq; exact Except.noConfusion hq⟩
  · intro b hmagic
    unfold PSBT.deserialize
    rw [if_neg hmagic]

/-- C6 (witness): the two error paths at concrete buffers: the magic
followed by an empty keyed map, and a three-byte garbage buffer. -/
theorem psbt_deserialize_errors_witness :
    (psbtMagic ++ [0]).take 5 = psbtMagic ∧
      PSBTMap.deserialize ((psbtMagic ++ [0]).drop 5) = some ([], []) ∧
      ([] : PSBTMapT).lookup 0 = none ∧
      PSBT.deserialize (psbtMagic ++ [0]) = .error .missingUnsignedTx ∧
      ([1, 2, 3] : Bytes).take 5 ≠ psbtMagic ∧
      PSBT.deserialize [1, 2, 3] = .error .invalidMagic := by
  refine ⟨by decide, by decide, by decide,
    (psbt_deserialize_errors.1 (psbtMagic ++ [0]) [] [] (by decide) (by decide)
      (by decide)).1,
    by decide, psbt_deserialize_errors.2 [1, 2, 3] (by decide)⟩

/-! ## Claim C8: make_blank -/

/-- C8: for a Psbt whose global map contains key 0, make_blank succeeds,
is idempotent, empties every per-input and per-output map (keeping their
count), and leaves a global map holding exactly key 0 with its original
value. -/
theorem make_blank_idempotent {p : PSBT} {v : PSBTVal}
    (h : p.g.lookup 0 = some v) :
    ∃ q, PSBT.make_blank p = some q ∧ PSBT.make_blank q = some q ∧
      q.g = [(0, v)] ∧ (∀ m ∈ q.i, m = ([] : PSBTMapT)) ∧
      (∀ m ∈ q.o, m = ([] : PSBTMapT)) ∧
      q.i.length = p.i.length ∧ q.o.length = p.o.length := by
  refine ⟨_, by unfold PSBT.make_blank; rw [h], ?_, rfl, ?_, ?_, by simp, by simp⟩
  · simp [PSBT.make_blank, List.map_map, Function.comp_def]
  · intro m hm
    simp only [List.mem_map] at hm
    obtain ⟨_, _, hx⟩ := hm
    exact hx.symm
  · intro m hm
    simp only [List.mem_map] at hm
    obtain ⟨_, _, hx⟩ := hm
    exact hx.symm

/-- C8 (witness): make_blank at a concrete Psbt with key 0 present. -/
theorem make_blank_idempotent_witness :
    (PSBT.mk [(0, .scalar [1]), (3, .scalar [2])] [[(7, .scalar [9])]] []
        none).g.lookup 0 = some (.scalar [1]) ∧
      ∃ q, PSBT.make_blank (PSBT.mk [(0, .scalar [1]), (3, .scalar [2])]
          [[(7, .scalar [9])]] [] none) = some q ∧
        PSBT.make_blank q = some q ∧ q.g = [(0, .scalar [1])] ∧
        (∀ m ∈ q.i, m = ([] : PSBTMapT)) ∧ (∀ m ∈ q.o, m = ([] : PSBTMapT)) ∧
        q.i.length = 1 ∧ q.o.length = 0 :=
  ⟨by decide, make_blank_idempotent (by decide)⟩

/-! ## Claim C9: witness-list reconciliation in serialize_with_witness -/

/-- C9: serializing a transaction whose non-null witness list length
differs from its input count succeeds, truncating or null-padding the
witness list to exactly the input count; exactly that many per-input
stacks are emitted after the marker and flag, and the transaction value
is mutated so that its stored witness list has the reconciled length. -/
theorem serialize_with_witness_reconciles {t : CTransaction}
    (hnn : CTxWitness.is_null t.wit = false)
    (hlen : t.wit.length ≠ t.vin.length) :
    (t.serialize_with_witness).2.wit =
        t.wit.take t.vin.length ++
          List.replicate (t.vin.length - t.wit.length) ⟨⟨[]⟩⟩ ∧
      (t.serialize_with_witness).2.wit.length = t.vin.length ∧
      (t.serialize_with_witness).2.vin = t.vin ∧
      (t.serialize_with_witness).1 =
        serInt32 t.nVersion ++ (ser_compact_size 0 ++ toLE 1 1) ++
          ser_vector CTxIn.serialize t.vin ++
          ser_vector CTxOut.serialize t.vout ++
          CTxWitness.serialize (t.serialize_with_witness).2.wit ++
          toLE 4 t.nLockTime := by
  have hwit : (t.serialize_with_witness).2.wit =
      t.wit.take t.vin.length ++
        List.replicate (t.vin.length - t.wit.length) ⟨⟨[]⟩⟩ := by
    simp [CTransaction.serialize_with_witness, hnn, hlen]
  refine ⟨hwit, ?_, ?_, ?_⟩
  · rw [hwit]
    simp only [List.length_append, List.length_take, List.length_replicate]
    omega
  · simp [CTransaction.serialize_with_witness]
  · rw [hwit]
    simp [CTransaction.serialize_with_witness, hnn, hlen]

/-- C9 (witness): the reconciliation at a concrete transaction with one
input and two witness stacks (the second, non-null one is dropped). -/
theorem serialize_with_witness_reconciles_witness :
    CTxWitness.is_null
        (CTransaction.mk 1 [⟨⟨0, 0⟩, [], 0⟩] [] [⟨⟨[[5]]⟩⟩, ⟨⟨[[6]]⟩⟩] 0).wit =
      false ∧
    (CTransaction.mk 1 [⟨⟨0, 0⟩, [], 0⟩] [] [⟨⟨[[5]]⟩⟩, ⟨⟨[[6]]⟩⟩] 0).wit.length ≠
      (CTransaction.mk 1 [⟨⟨0, 0⟩, [], 0⟩] [] [⟨⟨[[5]]⟩⟩, ⟨⟨[[6]]⟩⟩] 0).vin.length ∧
    ((CTransaction.mk 1 [⟨⟨0, 0⟩, [], 0⟩] [] [⟨⟨[[5]]⟩⟩, ⟨⟨[[6]]⟩⟩]
          0).serialize_with_witness).2.wit =
        (CTransaction.mk 1 [⟨⟨0, 0⟩, [], 0⟩] [] [⟨⟨[[5]]⟩⟩, ⟨⟨[[6]]⟩⟩]
          0).wit.take 1 ++ List.replicate (1 - 2) ⟨⟨[]⟩⟩ ∧
    ((CTransaction.mk 1 [⟨⟨0, 0⟩, [], 0⟩] [] [⟨⟨[[5]]⟩⟩, ⟨⟨[[6]]⟩⟩]
          0).serialize_with_witness).2.wit.length = 1 :=
  ⟨by decide, by decide,
    (serialize_with_witness_reconciles (by decide) (by decide)).1,
    (serialize_with_witness_reconciles (by decide) (by decide)).2.1⟩

/-! ## Claim C10: duplicate keys in PSBTMap.deserialize -/

theorem deserializeFuel_step {fuel : Nat} {m : PSBTMapT} {k v tail : Bytes}
    (hk : k ≠ []) (hk64 : k.length < 2 ^ 64) (hv64 : v.length < 2 ^ 64) :
    PSBTMap.deserializeFuel (fuel + 1) m (encPair (k, v) ++ tail) =
      insertPair m (k, v) >>= fun m' => PSBTMap.deserializeFuel fuel m' tail := by
  simp only [PSBTMap.deserializeFuel, encPair, List.append_assoc,
    deser_string_ser hk64, Option.bind_eq_bind, Option.some_bind, if_neg hk,
    deser_string_ser hv64]

theorem deserializeFuel_term {fuel : Nat} {m : PSBTMapT} {rest : Bytes} :
    PSBTMap.deserializeFuel (fuel + 1) m (0 :: rest) = some (m, rest) := by
  have h0 : deser_string (0 :: rest) = some ([], rest) := by
    simp [deser_string, deser_compact_size, readBytes]
  simp [PSBTMap.deserializeFuel, h0]

/-! ## Claim C3: sighash determinism and the anyone_can_pay difference -/

theorem sighashPreimage_eq {sc : Bytes} {p : PSBT} {i : Nat}
    {tx : CTransaction} {txin : CTxIn} {imap : PSBTMapT} {utxo : Bytes}
    {prev_txo : CTxOut} (acp : Bool) (htx : p.tx = some tx)
    (hvin : tx.vin.get? i = some txin) (him : p.i.get? i = some imap)
    (hut : imap.lookup PSBT_IN_WITNESS_UTXO = some (.scalar utxo))
    (hpt : CTxOut.from_binary utxo = some prev_txo) :
    sighashPreimage sc p i acp =
      some (serInt32 tx.nVersion ++
        (if acp then List.replicate 32 0
         else hash256 (tx.vin.flatMap fun inp => inp.prevout.serialize)) ++
        (if acp then List.replicate 32 0
         else hash256 (tx.vin.flatMap fun inp => toLE 4 inp.nSequence)) ++
        txin.prevout.serialize ++ ser_string sc ++ serInt64 prev_txo.nValue ++
        toLE 4 txin.nSequence ++ hash256 (tx.vout.flatMap CTxOut.serialize) ++
        toLE 4 tx.nLockTime ++
        (if acp then [0x81, 0x00, 0x00, 0x00] else [0x01, 0x00, 0x00, 0x00])) := by
  unfold sighashPreimage
  rw [htx]
  simp only [hvin, him, hut, hpt]

theorem sighashPreimage_inv {sc : Bytes} {p : PSBT} {i : Nat} {pre : Bytes}
    (hf : sighashPreimage sc p i false = some pre) :
    ∃ tx txin imap utxo prev_txo, p.tx = some tx ∧
      tx.vin.get? i = some txin ∧ p.i.get? i = some imap ∧
      imap.lookup PSBT_IN_WITNESS_UTXO = some (.scalar utxo) ∧
      CTxOut.from_binary utxo = some prev_txo := by
  unfold sighashPreimage at hf
  split at hf
  · exact absurd hf (by simp)
  next tx htx =>
    split at hf
    next txin imap hvin him =>
      split at hf
      next utxo hut =>
        split at hf
        next prev_txo hpt =>
          exact ⟨tx, txin, imap, utxo, prev_txo, htx, hvin, him, hut, hpt⟩
        next => exact absurd hf (by simp)
      next hut => exact absurd hf (by simp)
    next => exact absurd hf (by simp)

/-- C3: sighash_all_witness is deterministic and returns a 32-byte
digest, and flipping anyone_can_pay from false to true changes exactly
three preimage components: hash_prevouts and hash_sequence become 32
zero bytes each and the low byte of the trailing 4-byte little-endian
sighash_type field changes from 0x01 to 0x81, every other byte being
unchanged. -/
theorem sighash_anyone_can_pay_difference {sc : Bytes} {p : PSBT} {i : Nat}
    {pre : Bytes} (hf : sighashPreimage sc p i false = some pre) :
    sighash_all_witness sc p i false = sighash_all_witness sc p i false ∧
      (∀ d, sighash_all_witness sc p i false = some d → d.length = 32) ∧
      ∃ hp hs mid prt, sighashPreimage sc p i true = some prt ∧
        hp.length = 32 ∧ hs.length = 32 ∧
        pre = pre.take 4 ++ hp ++ hs ++ mid ++ [0x01, 0x00, 0x00, 0x00] ∧
        prt = pre.take 4 ++ List.replicate 32 0 ++ List.replicate 32 0 ++
          mid ++ [0x81, 0x00, 0x00, 0x00] := by
  refine ⟨rfl, ?_, ?_⟩
  · intro d hd
    unfold sighash_all_witness at hd
    cases hsp : sighashPreimage sc p i false with
    | none => rw [hsp] at hd; exact absurd hd (by simp)
    | some q =>
      rw [hsp] at hd
      simp only [Option.map_some', Option.some.injEq] at hd
      rw [← hd]
      exact hash256_length q
  · obtain ⟨tx, txin, imap, utxo, prev_txo, htx, hvin, him, hut, hpt⟩ :=
      sighashPreimage_inv hf
    have hfalse := @sighashPreimage_eq sc p i tx txin imap utxo prev_txo
      false htx hvin him hut hpt
    have htrue := @sighashPreimage_eq sc p i tx txin imap utxo prev_txo
      true htx hvin him hut hpt
    simp only [if_true, if_false, Bool.false_eq_true, reduceIte] at hfalse htrue
    rw [hf] at hfalse
    have hpre := Option.some.injEq _ _ ▸ hfalse
    have hpre' : pre = serInt32 tx.nVersion ++
        hash256 (tx.vin.flatMap fun inp => inp.prevout.serialize) ++
        hash256 (tx.vin.flatMap fun inp => toLE 4 inp.nSequence) ++
        txin.prevout.serialize ++ ser_string sc ++ serInt64 prev_txo.nValue ++
        toLE 4 txin.nSequence ++ hash256 (tx.vout.flatMap CTxOut.serialize) ++
        toLE 4 tx.nLockTime ++ [0x01, 0x00, 0x00, 0x00] := by
      injection hfalse
    have hver : (serInt32 tx.nVersion).length = 4 := toLE_length 4 _
    have htake : pre.take 4 = serInt32 tx.nVersion := by
      rw [hpre']
      simp only [List.append_assoc]
      rw [← hver, List.take_left]
    refine ⟨hash256 (tx.vin.flatMap fun inp => inp.prevout.serialize),
      hash256 (tx.vin.flatMap fun inp => toLE 4 inp.nSequence),
      txin.prevout.serialize ++ ser_string sc ++ serInt64 prev_txo.nValue ++
        toLE 4 txin.nSequence ++ hash256 (tx.vout.flatMap CTxOut.serialize) ++
        toLE 4 tx.nLockTime, _, htrue, hash256_length _, hash256_length _,
      ?_, ?_⟩
    · rw [htake]
      conv_lhs => rw [hpre']
      simp [List.append_assoc]
    · rw [htake]
      simp [List.append_assoc]

/-- A concrete PSBT on which sighash_all_witness is defined: one input
spending the zero outpoint, one output, and a witness UTXO of 9 satoshis
with an empty script attached to input 0. -/
def sigPsbt : PSBT :=
  { g := []
    i := [[(PSBT_IN_WITNESS_UTXO, .scalar (CTxOut.serialize ⟨9, []⟩))]]
    o := []
    tx := some ⟨2, [⟨⟨0, 0⟩, [], 0xFFFFFFFF⟩], [⟨7, [0x51]⟩], [], 0⟩ }

/-- The BIP143 preimage of sigPsbt input 0 without anyone_can_pay. -/
def sigPsbtPre : Bytes :=
  [2, 0, 0, 0, 202, 90, 206, 109, 236, 119, 42, 41, 7, 119, 152, 127, 215,
   112, 22, 252, 253, 50, 146, 90, 66, 200, 67, 137, 183, 181, 251, 209, 192,
   38, 84, 225, 59, 177, 48, 41, 206, 123, 31, 85, 158, 245, 231, 71, 252,
   172, 67, 159, 20, 85, 162, 236, 124, 95, 9, 183, 34, 144, 121, 94, 112,
   102, 80, 68, 0, 0, 0, 0, 0, 0, 0, 0, 0, 0, 0, 0, 0, 0, 0, 0, 0, 0, 0, 0,
   0, 0, 0, 0, 0, 0, 0, 0, 0, 0, 0, 0, 0, 0, 0, 0, 0, 9, 0, 0, 0, 0, 0, 0,
   0, 255, 255, 255, 255, 175, 220, 216, 208, 12, 95, 248, 188, 63, 73, 65,
   142, 81, 224, 246, 247, 128, 247, 43, 239, 190, 119, 72, 41, 251, 61, 127,
   184, 230, 141, 171, 229, 0, 0, 0, 0, 1, 0, 0, 0]

set_option maxRecDepth 40000 in
/-- C3 (witness): the sighash difference theorem at sigPsbt, whose
preimage is pinned as a literal. -/
theorem sighash_anyone_can_pay_difference_witness :
    sighashPreimage [] sigPsbt 0 false = some sigPsbtPre ∧
      (sighash_all_witness [] sigPsbt 0 false =
          sighash_all_witness [] sigPsbt 0 false ∧
        (∀ d, sighash_all_witness [] sigPsbt 0 false = some d →
          d.length = 32) ∧
        ∃ hp hs mid prt, sighashPreimage [] sigPsbt 0 true = some prt ∧
          hp.length = 32 ∧ hs.length = 32 ∧
          sigPsbtPre = sigPsbtPre.take 4 ++ hp ++ hs ++ mid ++
            [0x01, 0x00, 0x00, 0x00] ∧
          prt = sigPsbtPre.take 4 ++ List.replicate 32 0 ++
            List.replicate 32 0 ++ mid ++ [0x81, 0x00, 0x00, 0x00]) := by
  have h : sighashPreimage [] sigPsbt 0 false = some sigPsbtPre := by decide
  exact ⟨h, sighash_anyone_can_pay_difference h⟩

/-! ## Claim C1 infrastructure: reconstruction of a keyed map from its
serialized entry stream -/

/-- Fold the wire entries into an accumulating map, as the deserialize
loop does. -/
def insertAll (m : PSBTMapT) : List (Bytes × Bytes) → Option PSBTMapT
  | [] => some m
  | e :: es => insertPair m e >>= fun m' => insertAll m' es

theorem insertAll_append (m : PSBTMapT) (a b : List (Bytes × Bytes)) :
    insertAll m (a ++ b) =
      insertAll m a >>= fun m' => insertAll m' b := by
  induction a generalizing m with
  | nil => simp [insertAll]
  | cons e es ih =>
    simp only [List.cons_append, insertAll, Option.bind_eq_bind]
    cases insertPair m e with
    | none => simp
    | some m' => simp [ih m']

/-- Parsing a serialized entry stream followed by the terminator folds
the entries into the accumulator and stops at the terminator. -/
theorem deserializeFuel_entries (es : List (Bytes × Bytes)) :
    ∀ (fuel : Nat) (m : PSBTMapT) (rest : Bytes), es.length + 1 ≤ fuel →
    (∀ e ∈ es, e.1 ≠ [] ∧ e.1.length < 2 ^ 64 ∧ e.2.length < 2 ^ 64) →
    PSBTMap.deserializeFuel fuel m (es.flatMap encPair ++ 0 :: rest) =
      (insertAll m es).bind fun m' => some (m', rest) := by
  induction es with
  | nil =>
    intro fuel m rest hfuel _
    obtain ⟨f, rfl⟩ : ∃ f, fuel = f + 1 := ⟨fuel - 1, by omega⟩
    simp [deserializeFuel_term, insertAll]
  | cons e es ih =>
    intro fuel m rest hfuel hwf
    obtain ⟨f, rfl⟩ : ∃ f, fuel = f + 1 := ⟨fuel - 1, by omega⟩
    obtain ⟨he1, he2, he3⟩ := hwf e (List.mem_cons_self e es)
    simp only [List.flatMap_cons, List.append_assoc]
    rw [deserializeFuel_step he1 he2 he3]
    simp only [insertAll, Option.bind_eq_bind]
    cases insertPair m e with
    | none => simp
    | some m' =>
      simp only [Option.some_bind]
      exact ih f m' rest (by simp at hfuel ⊢; omega)
        (fun x hx => hwf x (List.mem_cons_of_mem e hx))

theorem encPair_length_pos (e : Bytes × Bytes) : 0 < (encPair e).length := by
  have := ser_compact_size_length_pos e.1.length
  simp only [encPair, ser_string, List.length_append]
  omega

theorem flatMap_encPair_length (es : List (Bytes × Bytes)) :
    es.length ≤ (es.flatMap encPair).length := by
  induction es with
  | nil => simp
  | cons e es ih =>
    have := encPair_length_pos e
    simp only [List.flatMap_cons, List.length_append, List.length_cons]
    omega

/-! ### Lookup helpers on association lists -/

theorem lookup_append_of_none {m : PSBTMapT} {k : Nat}
    (h : m.lookup k = none) (l : PSBTMapT) :
    (m ++ l).lookup k = l.lookup k := by
  induction m with
  | nil => simp
  | cons e es ih =>
    simp only [List.lookup] at h ⊢
    cases hbe : (k == e.1) with
    | true => rw [hbe] at h; simp at h
    | false =>
      rw [hbe] at h
      simp only [List.cons_append, List.lookup, hbe]
      exact ih h

theorem lookup_singleton_ne {k t : Nat} {v : PSBTVal} (h : k ≠ t) :
    ([(t, v)] : PSBTMapT).lookup k = none := by
  have hbe : (k == t) = false := by simp [h]
  simp [List.lookup, hbe]

theorem lookup_singleton_eq {t : Nat} {v : PSBTVal} :
    ([(t, v)] : PSBTMapT).lookup t = some v := by
  simp [List.lookup]

/-- Replacing the value at the single key appended after a key-free
prefix. -/
theorem mapSetSub_append {m : PSBTMapT} {k : Nat}
    (h : m.lookup k = none) (v : PSBTVal) (l : List (Bytes × Bytes)) :
    mapSetSub (m ++ [(k, v)]) k l = m ++ [(k, .sub l)] := by
  induction m with
  | nil => simp [mapSetSub]
  | cons e es ih =>
    simp only [List.lookup] at h
    cases hbe : (k == e.1) with
    | true => rw [hbe] at h; simp at h
    | false =>
      rw [hbe] at h
      have hne : e.1 ≠ k := by
        intro hk; rw [hk] at hbe; simp at hbe
      simp only [List.cons_append, mapSetSub, if_neg hne]
      exact congrArg _ (ih h)

/-- Assignment of a fresh key-data appends to a nested map. -/
theorem assocSet_fresh {l : List (Bytes × Bytes)} {k : Bytes}
    (h : ∀ e ∈ l, e.1 ≠ k) (v : Bytes) : assocSet l k v = l ++ [(k, v)] := by
  induction l with
  | nil => rfl
  | cons e es ih =>
    simp only [assocSet, if_neg (h e (List.mem_cons_self e es)), List.cons_append]
    rw [ih fun x hx => h x (List.mem_cons_of_mem e hx)]

/-! ### Sorting by key type -/

theorem keyInsert_perm (e : Nat × PSBTVal) (l : PSBTMapT) :
    (keyInsert e l).Perm (e :: l) := by
  induction l with
  | nil => simp [keyInsert]
  | cons f fs ih =>
    simp only [keyInsert]
    split
    · exact List.Perm.refl _
    · exact (ih.cons f).trans (List.Perm.swap e f fs)

theorem sortKeys_perm (m : PSBTMapT) : (sortKeys m).Perm m := by
  induction m with
  | nil => simp [sortKeys]
  | cons e es ih =>
    exact (keyInsert_perm e (sortKeys es)).trans (ih.cons e)

theorem keyInsert_sorted {l : PSBTMapT} (e : Nat × PSBTVal)
    (h : l.Pairwise fun a b => a.1 ≤ b.1) :
    (keyInsert e l).Pairwise fun a b => a.1 ≤ b.1 := by
  induction l with
  | nil => simp [keyInsert]
  | cons f fs ih =>
    simp only [keyInsert]
    rw [List.pairwise_cons] at h
    split
    next hle =>
      refine List.Pairwise.cons ?_ (List.Pairwise.cons h.1 h.2)
      intro x hx
      rcases List.mem_cons.mp hx with hx | hx
      · exact hx ▸ hle
      · exact le_trans hle (h.1 x hx)
    next hgt =>
      refine List.Pairwise.cons ?_ (ih h.2)
      intro x hx
      have := (keyInsert_perm e fs).mem_iff.mp hx
      rcases List.mem_cons.mp this with hx' | hx'
      · subst hx'; omega
      · exact h.1 x hx'

theorem sortKeys_sorted (m : PSBTMapT) :
    (sortKeys m).Pairwise fun a b => a.1 ≤ b.1 := by
  induction m with
  | nil => simp [sortKeys]
  | cons e es ih => exact keyInsert_sorted e ih

theorem keyInsert_of_le {l : PSBTMapT} {e : Nat × PSBTVal}
    (h : ∀ f ∈ l, e.1 ≤ f.1) : keyInsert e l = e :: l := by
  cases l with
  | nil => rfl
  | cons f fs => simp [keyInsert, h f (List.mem_cons_self f fs)]

theorem sortKeys_of_sorted {m : PSBTMapT}
    (h : m.Pairwise fun a b => a.1 ≤ b.1) : sortKeys m = m := by
  induction m with
  | nil => rfl
  | cons e es ih =>
    rw [List.pairwise_cons] at h
    simp only [sortKeys]
    rw [ih h.2, keyInsert_of_le h.1]

theorem sortKeys_idem (m : PSBTMapT) : sortKeys (sortKeys m) = sortKeys m :=
  sortKeys_of_sorted (sortKeys_sorted m)

/-! ### Well-formedness of maps as Python builds them: dict keys are
distinct, keys and values are bytes objects, nested maps are created
non-empty with non-empty key data -/

/-- Well-formedness of a map value: byte-string contents within
struct.pack range, and for a nested map distinct non-empty key data. -/
def PSBTVal.wf : PSBTVal → Prop
  | .scalar v => v.length < 2 ^ 64 ∧ bytesOk v
  | .sub l => l ≠ [] ∧ (l.Pairwise fun a b => a.1 ≠ b.1) ∧
      ∀ kv ∈ l, kv.1 ≠ [] ∧ kv.1.length + 1 < 2 ^ 64 ∧
        kv.2.length < 2 ^ 64 ∧ bytesOk kv.1 ∧ bytesOk kv.2

/-- Well-formedness of a keyed map: distinct byte-range key types with
well-formed values. -/
def PSBTMap.wf (m : PSBTMapT) : Prop :=
  (m.Pairwise fun a b => a.1 ≠ b.1) ∧ ∀ e ∈ m, e.1 ≤ 255 ∧ e.2.wf

instance : (v : PSBTVal) → Decidable v.wf
  | .scalar v => by simp only [PSBTVal.wf]; infer_instance
  | .sub l => by simp only [PSBTVal.wf]; infer_instance

instance (m : PSBTMapT) : Decidable (PSBTMap.wf m) := by
  unfold PSBTMap.wf; infer_instance

/-- Inserting the remaining wire pairs of one nested group extends the
nested map in place. -/
theorem insertAll_subEntries {acc : PSBTMapT} {k : Nat}
    (hk : acc.lookup k = none) (rl : List (Bytes × Bytes)) :
    ∀ cur : List (Bytes × Bytes), cur ≠ [] →
    ((cur ++ rl).Pairwise fun a b => a.1 ≠ b.1) →
    (∀ kv ∈ rl, kv.1 ≠ []) →
    insertAll (acc ++ [(k, .sub cur)]) (rl.map fun kv => (k :: kv.1, kv.2)) =
      some (acc ++ [(k, .sub (cur ++ rl))]) := by
  induction rl with
  | nil =>
    intro cur _ _ _
    simp [insertAll]
  | cons e rl ih =>
    intro cur hcur hpw hne
    have he1 : e.1 ≠ [] := hne e (List.mem_cons_self e rl)
    have hfresh : ∀ f ∈ cur, f.1 ≠ e.1 := by
      intro f hf
      have := (List.pairwise_append.mp hpw).2.2 f hf e (List.mem_cons_self e rl)
      exact this
    have hins : insertPair (acc ++ [(k, .sub cur)]) (k :: e.1, e.2) =
        some (acc ++ [(k, .sub (cur ++ [(e.1, e.2)]))]) := by
      obtain ⟨a, l', he⟩ : ∃ a l', e.1 = a :: l' := by
        cases hel : e.1 with
        | nil => exact absurd hel he1
        | cons a l' => exact ⟨a, l', rfl⟩
      simp only [insertPair, he, mapInsertSub,
        lookup_append_of_none hk, lookup_singleton_eq]
      rw [← he, assocSet_fresh hfresh, mapSetSub_append hk]
    simp only [List.map_cons, insertAll, hins, Option.bind_eq_bind, Option.some_bind]
    have := ih (cur ++ [(e.1, e.2)]) (by simp) (by simpa using hpw)
      (fun x hx => hne x (List.mem_cons_of_mem e hx))
    simpa using this

/-- Inserting the wire pairs of one map entry under a fresh key appends
it whole. -/
theorem insertAll_entryPairs {acc : PSBTMapT} {k : Nat} {v : PSBTVal}
    (hk : acc.lookup k = none) (hv : v.wf) :
    insertAll acc (entryPairs k v) = some (acc ++ [(k, v)]) := by
  cases v with
  | scalar val =>
    simp only [entryPairs, insertAll, insertPair, mapInsertScalar, hk,
      Option.isSome_none, Bool.false_eq_true, if_false, Option.bind_eq_bind,
      Option.some_bind]
  | sub l =>
    obtain ⟨hne, hpw, hkv⟩ := hv
    cases l with
    | nil => exact absurd rfl hne
    | cons e0 rl =>
      have he0 : e0.1 ≠ [] := (hkv e0 (List.mem_cons_self e0 rl)).1
      obtain ⟨a, l', he⟩ : ∃ a l', e0.1 = a :: l' := by
        cases hel : e0.1 with
        | nil => exact absurd hel he0
        | cons a l' => exact ⟨a, l', rfl⟩
      have hins : insertPair acc (k :: e0.1, e0.2) =
          some (acc ++ [(k, .sub [(e0.1, e0.2)])]) := by
        simp only [insertPair, he, mapInsertSub, hk]
      simp only [entryPairs, List.map_cons, insertAll, hins, Option.bind_eq_bind,
        Option.some_bind]
      have := insertAll_subEntries hk rl [(e0.1, e0.2)] (by simp)
        (by simpa using hpw) (fun x hx => (hkv x (List.mem_cons_of_mem e0 hx)).1)
      simpa using this

/-- Folding the wire entries of a whole well-formed map into an
accumulator free of its keys appends the map unchanged. -/
theorem insertAll_wireEntries (ms : PSBTMapT) :
    ∀ acc : PSBTMapT, (∀ e ∈ ms, acc.lookup e.1 = none) →
    (ms.Pairwise fun a b => a.1 ≠ b.1) → (∀ e ∈ ms, e.2.wf) →
    insertAll acc (wireEntries ms) = some (acc ++ ms) := by
  induction ms with
  | nil => intro acc _ _ _; simp [wireEntries, insertAll]
  | cons e ms ih =>
    intro acc hfresh hpw hwf
    simp only [wireEntries, List.flatMap_cons] at *
    rw [insertAll_append]
    rw [insertAll_entryPairs (hfresh e (List.mem_cons_self e ms))
      (hwf e (List.mem_cons_self e ms))]
    simp only [Option.bind_eq_bind, Option.some_bind]
    rw [List.pairwise_cons] at hpw
    have := ih (acc ++ [(e.1, e.2)])
      (fun f hf => by
        rw [lookup_append_of_none (hfresh f (List.mem_cons_of_mem e hf))]
        exact lookup_singleton_ne fun hq => (hpw.1 f hf) hq.symm)
      hpw.2 (fun f hf => hwf f (List.mem_cons_of_mem e hf))
    simpa using this

/-- Every wire entry of a map with byte-range keys and well-formed
values has a non-empty key and encodable key/value lengths. -/
theorem wireEntries_wf {m : PSBTMapT} (h : ∀ e ∈ m, e.1 ≤ 255 ∧ e.2.wf) :
    ∀ e ∈ wireEntries m, e.1 ≠ [] ∧ e.1.length < 2 ^ 64 ∧
      e.2.length < 2 ^ 64 := by
  intro e he
  simp only [wireEntries, List.mem_flatMap] at he
  obtain ⟨f, hf, hef⟩ := he
  obtain ⟨_, hwf⟩ := h f hf
  cases hv : f.2 with
  | scalar val =>
    rw [hv] at hef hwf
    simp only [entryPairs, List.mem_singleton] at hef
    subst hef
    simp only [PSBTVal.wf] at hwf
    exact ⟨by simp, by simp, hwf.1⟩
  | sub l =>
    rw [hv] at hef hwf
    simp only [entryPairs, List.mem_map] at hef
    obtain ⟨kv, hkv, hkve⟩ := hef
    obtain ⟨_, _, h3⟩ := hwf
    obtain ⟨_, h5, h6, _, _⟩ := h3 kv hkv
    subst hkve
    exact ⟨by simp, by simpa using h5, h6⟩

/-- Serialization of a well-formed map: the sorted wire entries followed
by the terminator. -/
theorem PSBTMap.serialize_of_wf {m : PSBTMapT} (h : ∀ e ∈ m, e.1 ≤ 255) :
    PSBTMap.serialize m =
      some ((wireEntries (sortKeys m)).flatMap encPair ++ [0]) := by
  unfold PSBTMap.serialize
  rw [if_pos h]

/-- Decoding a well-formed map's serialization consumes exactly its
bytes and returns the map with its top-level entries in ascending key
order. -/
theorem psbtmap_deserialize_serialize {m : PSBTMapT} (hwf : PSBTMap.wf m)
    (rest : Bytes) :
    PSBTMap.deserialize ((wireEntries (sortKeys m)).flatMap encPair ++ 0 :: rest) =
      some (sortKeys m, rest) := by
  obtain ⟨hpw, hkv⟩ := hwf
  have hkv' : ∀ e ∈ sortKeys m, e.1 ≤ 255 ∧ e.2.wf :=
    fun e he => hkv e ((sortKeys_perm m).mem_iff.mp he)
  have hpw' : (sortKeys m).Pairwise fun a b => a.1 ≠ b.1 :=
    ((sortKeys_perm m).pairwise_iff fun hab => Ne.symm hab).mpr hpw
  unfold PSBTMap.deserialize
  rw [deserializeFuel_entries _ _ _ _
    (by
      have h1 := flatMap_encPair_length (wireEntries (sortKeys m))
      simp only [List.length_append, List.length_cons]
      omega)
    (wireEntries_wf hkv')]
  rw [insertAll_wireEntries (sortKeys m) [] (fun e _ => rfl) hpw'
    (fun e he => (hkv' e he).2)]
  simp

/-! ### Sorting preserves lookups -/

theorem lookup_cons (k : Nat) (e : Nat × PSBTVal) (l : PSBTMapT) :
    ((e :: l) : PSBTMapT).lookup k = if k = e.1 then some e.2 else l.lookup k := by
  by_cases hk : k = e.1
  · have hb : (k == e.1) = true := by simpa using hk
    simp [List.lookup, hb, hk]
  · have hb : (k == e.1) = false := by simpa using hk
    simp [List.lookup, hb, hk]

theorem lookup_keyInsert {l : PSBTMapT} {e : Nat × PSBTVal}
    (h : ∀ f ∈ l, e.1 ≠ f.1) (k : Nat) :
    (keyInsert e l).lookup k = if k = e.1 then some e.2 else l.lookup k := by
  induction l with
  | nil => simp [keyInsert, lookup_cons]
  | cons f fs ih =>
    have hef : e.1 ≠ f.1 := h f (List.mem_cons_self f fs)
    simp only [keyInsert]
    split
    · rw [lookup_cons]
    · rw [lookup_cons, ih fun x hx => h x (List.mem_cons_of_mem f hx),
        lookup_cons k f fs]
      by_cases hk : k = e.1 <;> by_cases hkf : k = f.1
      · exact absurd (hk ▸ hkf) hef
      · simp [hk, hkf, hef]
      · simp [hk, hkf, Ne.symm hef]
      · simp [hk, hkf]

theorem lookup_sortKeys {m : PSBTMapT}
    (h : m.Pairwise fun a b => a.1 ≠ b.1) (k : Nat) :
    (sortKeys m).lookup k = m.lookup k := by
  induction m with
  | nil => rfl
  | cons e es ih =>
    rw [List.pairwise_cons] at h
    simp only [sortKeys]
    rw [lookup_keyInsert fun f hf => h.1 f ((sortKeys_perm es).mem_iff.mp hf),
      ih h.2, lookup_cons]

/-! ### Sequencing serialized maps -/

theorem mapM_eq_some {α β : Type} {f : α → Option β} {g : α → β} :
    ∀ {l : List α}, (∀ x ∈ l, f x = some (g x)) → l.mapM f = some (l.map g) := by
  intro l
  induction l with
  | nil => intro _; rfl
  | cons x xs ih =>
    intro h
    rw [List.mapM_cons, h x (List.mem_cons_self x xs)]
    simp only [Option.bind_eq_bind, Option.some_bind,
      ih fun y hy => h y (List.mem_cons_of_mem x hy)]
    rfl

/-- The serialized bytes of one keyed map. -/
def serMapBytes (m : PSBTMapT) : Bytes :=
  (wireEntries (sortKeys m)).flatMap encPair ++ [0]

theorem PSBTMap.deserialize_serMapBytes {m : PSBTMapT} (hwf : PSBTMap.wf m)
    (rest : Bytes) :
    PSBTMap.deserialize (serMapBytes m ++ rest) = some (sortKeys m, rest) := by
  have := psbtmap_deserialize_serialize hwf rest
  simpa [serMapBytes] using this

theorem deserializeMaps_serialized (ms : List PSBTMapT) :
    ∀ rest : Bytes, (∀ mm ∈ ms, PSBTMap.wf mm) →
    PSBT.deserializeMaps ms.length (ms.flatMap serMapBytes ++ rest) =
      some (ms.map sortKeys, rest) := by
  induction ms with
  | nil => intro rest _; simp [PSBT.deserializeMaps]
  | cons m ms ih =>
    intro rest hwf
    simp only [List.length_cons, List.flatMap_cons, List.append_assoc,
      PSBT.deserializeMaps]
    rw [PSBTMap.deserialize_serMapBytes (hwf m (List.mem_cons_self m ms))]
    simp only [Option.bind_eq_bind, Option.some_bind]
    rw [ih rest fun x hx => hwf x (List.mem_cons_of_mem m hx)]
    rfl

/-! ### Base64 round-trip -/

theorem b64Sextet_b64Char : ∀ i < 64, b64Sextet (b64Char i) = some i := by decide

theorem b64Char_ne_61 : ∀ i < 64, b64Char i ≠ 61 := by decide

theorem b64Decode_b64Encode : ∀ s : Bytes, bytesOk s →
    b64Decode (b64Encode s) = some s
  | [] => fun _ => rfl
  | [a] => fun h => by
    have ha : a < 256 := h a (by simp)
    have h1 : a / 4 < 64 := by omega
    have h2 : a % 4 * 16 < 64 := by omega
    simp [b64Encode, b64Decode, b64Sextet_b64Char _ h1, b64Sextet_b64Char _ h2]
    omega
  | [a, b] => fun h => by
    have ha : a < 256 := h a (by simp)
    have hb : b < 256 := h b (by simp)
    have h1 : a / 4 < 64 := by omega
    have h2 : a % 4 * 16 + b / 16 < 64 := by omega
    have h3 : b % 16 * 4 < 64 := by omega
    have hne : b64Char (b % 16 * 4) ≠ 61 := b64Char_ne_61 _ h3
    simp [b64Encode, b64Decode, b64Sextet_b64Char _ h1, b64Sextet_b64Char _ h2,
      b64Sextet_b64Char _ h3, hne]
    constructor <;> omega
  | [a, b, c] => fun h => by
    have ha : a < 256 := h a (by simp)
    have hb : b < 256 := h b (by simp)
    have hc : c < 256 := h c (by simp)
    have h1 : a / 4 < 64 := by omega
    have h2 : a % 4 * 16 + b / 16 < 64 := by omega
    have h3 : b % 16 * 4 + c / 64 < 64 := by omega
    have h4 : c % 64 < 64 := by omega
    have hne3 : b64Char (b % 16 * 4 + c / 64) ≠ 61 := b64Char_ne_61 _ h3
    have hne4 : b64Char (c % 64) ≠ 61 := b64Char_ne_61 _ h4
    simp [b64Encode, b64Decode, b64Sextet_b64Char _ h1, b64Sextet_b64Char _ h2,
      b64Sextet_b64Char _ h3, b64Sextet_b64Char _ h4, hne3, hne4]
    refine ⟨by omega, by omega, by omega⟩
  | a :: b :: c :: d :: rest => fun h => by
    have ha : a < 256 := h a (by simp)
    have hb : b < 256 := h b (by simp)
    have hc : c < 256 := h c (by simp)
    have h1 : a / 4 < 64 := by omega
    have h2 : a % 4 * 16 + b / 16 < 64 := by omega
    have h3 : b % 16 * 4 + c / 64 < 64 := by omega
    have h4 : c % 64 < 64 := by omega
    have hne3 : b64Char (b % 16 * 4 + c / 64) ≠ 61 := b64Char_ne_61 _ h3
    have hne4 : b64Char (c % 64) ≠ 61 := b64Char_ne_61 _ h4
    have hsub : bytesOk (d :: rest) := fun x hx => h x (by simp at hx ⊢; tauto)
    have ih := b64Decode_b64Encode (d :: rest) hsub
    simp [b64Encode, b64Decode, b64Sextet_b64Char _ h1, b64Sextet_b64Char _ h2,
      b64Sextet_b64Char _ h3, b64Sextet_b64Char _ h4, hne3, hne4, ih]
    refine ⟨by omega, by omega, by omega⟩

/-! ### The serialized PSBT is a byte string -/

theorem bytesOk_append {a b : Bytes} (ha : bytesOk a) (hb : bytesOk b) :
    bytesOk (a ++ b) := by
  intro x hx
  rcases List.mem_append.mp hx with h | h
  · exact ha x h
  · exact hb x h

theorem bytesOk_flatMap {α : Type} {f : α → Bytes} {l : List α}
    (h : ∀ x ∈ l, bytesOk (f x)) : bytesOk (l.flatMap f) := by
  intro x hx
  obtain ⟨y, hy, hxy⟩ := List.mem_flatMap.mp hx
  exact h y hy x hxy

theorem ser_compact_size_bytesOk (l : Nat) : bytesOk (ser_compact_size l) := by
  unfold ser_compact_size
  split_ifs with h1 h2 h3
  · intro x hx; simp at hx; omega
  all_goals
    intro x hx
    rcases List.mem_cons.mp hx with h | h
    · omega
    · exact toLE_bytesOk _ _ x h

theorem ser_string_bytesOk {b : Bytes} (h : bytesOk b) : bytesOk (ser_string b) :=
  bytesOk_append (ser_compact_size_bytesOk b.length) h

theorem serMapBytes_bytesOk {m : PSBTMapT}
    (h : ∀ e ∈ m, e.1 ≤ 255 ∧ e.2.wf) : bytesOk (serMapBytes m) := by
  refine bytesOk_append (bytesOk_flatMap ?_) (by intro x hx; simp at hx; omega)
  intro e he
  obtain ⟨f, hf, hef⟩ := List.mem_flatMap.mp he
  have hf' := h f ((sortKeys_perm m).mem_iff.mp hf)
  refine bytesOk_append (ser_string_bytesOk ?_) (ser_string_bytesOk ?_)
  · cases hv : f.2 with
    | scalar val =>
      rw [hv] at hef
      simp only [entryPairs, List.mem_singleton] at hef
      subst hef
      intro x hx
      simp at hx
      omega
    | sub l =>
      rw [hv] at hef
      simp only [entryPairs, List.mem_map] at hef
      obtain ⟨kv, hkv, rfl⟩ := hef
      have := hf'.2
      rw [hv] at this
      obtain ⟨_, _, h3⟩ := this
      intro x hx
      rcases List.mem_cons.mp hx with hx | hx
      · omega
      · exact (h3 kv hkv).2.2.2.1 x hx
  · cases hv : f.2 with
    | scalar val =>
      rw [hv] at hef
      simp only [entryPairs, List.mem_singleton] at hef
      subst hef
      have := hf'.2
      rw [hv] at this
      exact this.2
    | sub l =>
      rw [hv] at hef
      simp only [entryPairs, List.mem_map] at hef
      obtain ⟨kv, hkv, rfl⟩ := hef
      have := hf'.2
      rw [hv] at this
      exact (this.2.2 kv hkv).2.2.2.2

/-! ### Serialization and deserialization of a valid PSBT -/

theorem flatten_map_serMapBytes (l : List PSBTMapT) :
    (l.map serMapBytes).flatten = l.flatMap serMapBytes := by
  induction l with
  | nil => rfl
  | cons m ms ih => simp [ih]

/-- The serialization of a PSBT whose global map holds a parseable
unsigned transaction with matching section counts and whose maps have
byte-range keys. -/
theorem PSBT.serialize_of_valid {p : PSBT} {txb : Bytes} {tx : CTransaction}
    (hg : p.g.lookup 0 = some (.scalar txb))
    (htx : CTransaction.from_binary txb = some tx)
    (hi : tx.vin.length = p.i.length) (ho : tx.vout.length = p.o.length)
    (hkeys : ∀ m ∈ p.g :: (p.i ++ p.o), ∀ e ∈ m, e.1 ≤ 255) :
    PSBT.serialize p = some (psbtMagic ++ serMapBytes p.g ++
      p.i.flatMap serMapBytes ++ p.o.flatMap serMapBytes) := by
  unfold PSBT.serialize
  rw [hg]
  simp only [htx]
  rw [if_pos ⟨hi, ho⟩]
  rw [mapM_eq_some (g := serMapBytes) fun m hm =>
    PSBTMap.serialize_of_wf (hkeys m hm)]
  simp only [Option.map_some', List.map_cons, List.flatten_cons, List.map_append,
    Option.some.injEq, List.flatten_append, flatten_map_serMapBytes]
  simp [List.append_assoc]

/-- Deserializing the serialization of a valid PSBT consumes it fully
and returns the PSBT with each map's entries in ascending key order and
the unsigned transaction attached. -/
theorem PSBT.deserialize_serialized {p : PSBT} {txb : Bytes}
    {tx : CTransaction} (hg : p.g.lookup 0 = some (.scalar txb))
    (htx : CTransaction.from_binary txb = some tx)
    (hi : tx.vin.length = p.i.length) (ho : tx.vout.length = p.o.length)
    (hwg : PSBTMap.wf p.g) (hwi : ∀ m ∈ p.i, PSBTMap.wf m)
    (hwo : ∀ m ∈ p.o, PSBTMap.wf m) :
    PSBT.deserialize (psbtMagic ++ serMapBytes p.g ++
        p.i.flatMap serMapBytes ++ p.o.flatMap serMapBytes) =
      .ok (⟨sortKeys p.g, p.i.map sortKeys, p.o.map sortKeys, some tx⟩, []) := by
  have hstream : psbtMagic ++ serMapBytes p.g ++ p.i.flatMap serMapBytes ++
      p.o.flatMap serMapBytes =
      psbtMagic ++ (serMapBytes p.g ++ (p.i.flatMap serMapBytes ++
        (p.o.flatMap serMapBytes ++ []))) := by
    simp [List.append_assoc]
  rw [hstream]
  unfold PSBT.deserialize
  have hmagiclen : psbtMagic.length = 5 := rfl
  rw [if_pos (by rw [← hmagiclen, List.take_left])]
  rw [← hmagiclen, List.drop_left]
  rw [PSBTMap.deserialize_serMapBytes hwg]
  simp only [lookup_sortKeys hwg.1, hg, htx, hi, ho,
    deserializeMaps_serialized p.i (p.o.flatMap serMapBytes ++ []) hwi,
    deserializeMaps_serialized p.o [] hwo]

/-! ### Ascending key types on the wire -/

/-- The type byte of each wire key of a serialized map, in emission
order. -/
def wireKeyTypes (m : PSBTMapT) : List Nat :=
  (wireEntries (sortKeys m)).map fun e => e.1.headD 0

theorem entryPairs_headD {k : Nat} {v : PSBTVal} :
    ∀ y ∈ entryPairs k v, y.1.headD 0 = k := by
  intro y hy
  cases v with
  | scalar val =>
    simp only [entryPairs, List.mem_singleton] at hy
    subst hy; rfl
  | sub l =>
    simp only [entryPairs, List.mem_map] at hy
    obtain ⟨kv, _, rfl⟩ := hy
    rfl

theorem wireTypes_pairwise {l : PSBTMapT}
    (h : l.Pairwise fun a b => a.1 ≤ b.1) :
    ((wireEntries l).map fun e => e.1.headD 0).Pairwise (· ≤ ·) := by
  induction l with
  | nil => simp [wireEntries]
  | cons e es ih =>
    rw [List.pairwise_cons] at h
    simp only [wireEntries, List.flatMap_cons, List.map_append]
    rw [List.pairwise_append]
    refine ⟨?_, ih h.2, ?_⟩
    · have hall : ∀ x ∈ (entryPairs e.1 e.2).map fun y => y.1.headD 0, x = e.1 := by
        intro x hx
        obtain ⟨y, hy, rfl⟩ := List.mem_map.mp hx
        exact entryPairs_headD y hy
      exact List.pairwise_of_forall_mem_list fun a ha b hb =>
        le_of_eq ((hall a ha).trans (hall b hb).symm)
    · intro a ha b hb
      obtain ⟨y, hy, rfl⟩ := List.mem_map.mp ha
      obtain ⟨z, hz, rfl⟩ := List.mem_map.mp hb
      obtain ⟨f, hf, hzf⟩ := List.mem_flatMap.mp hz
      rw [entryPairs_headD y hy, entryPairs_headD z hzf]
      exact h.1 f hf

theorem wireKeyTypes_sorted (m : PSBTMapT) :
    (wireKeyTypes m).Pairwise (· ≤ ·) :=
  wireTypes_pairwise (sortKeys_sorted m)

theorem forall₂_sortKeys (l : List PSBTMapT) :
    List.Forall₂ (fun a b => a.Perm b) (l.map sortKeys) l := by
  induction l with
  | nil => exact List.Forall₂.nil
  | cons m ms ih => exact List.Forall₂.cons (sortKeys_perm m) ih

theorem serMapBytes_sortKeys (m : PSBTMapT) :
    serMapBytes (sortKeys m) = serMapBytes m := by
  simp [serMapBytes, sortKeys_idem]

theorem flatMap_serMapBytes_map (l : List PSBTMapT) :
    (l.map sortKeys).flatMap serMapBytes = l.flatMap serMapBytes := by
  induction l with
  | nil => rfl
  | cons m ms ih => simp [serMapBytes_sortKeys, ih]

theorem sortKeys_wf {m : PSBTMapT} (h : PSBTMap.wf m) :
    PSBTMap.wf (sortKeys m) :=
  ⟨((sortKeys_perm m).pairwise_iff fun hab => Ne.symm hab).mpr h.1,
    fun e he => h.2 e ((sortKeys_perm m).mem_iff.mp he)⟩

/-! ### Claim C1 -/

/-- The validity condition of the round-trip claim: the global map holds
key 0 with a parseable serialized transaction, and the PSBT has exactly
one input map per transaction input and one output map per output. -/
def PSBT.claimValid (p : PSBT) : Prop :=
  ∃ txb tx, p.g.lookup 0 = some (.scalar txb) ∧
    CTransaction.from_binary txb = some tx ∧
    tx.vin.length = p.i.length ∧ tx.vout.length = p.o.length

/-- Well-formedness of all keyed maps of a PSBT, as Python dicts of
bytes give them: distinct byte-range key types, and nested maps
non-empty with distinct non-empty key data. -/
def PSBT.mapsWf (p : PSBT) : Prop :=
  PSBTMap.wf p.g ∧ (∀ m ∈ p.i, PSBTMap.wf m) ∧ ∀ m ∈ p.o, PSBTMap.wf m

/-- C1 (amended): for a valid PSBT with well-formed maps, the base64
round-trip reproduces a PSBT whose maps hold the same entries (each map
comes back as a permutation: the top level is re-emitted in ascending
key order), reserializing it yields bytes identical to the original
serialization, and in the serialized form the wire key types of every
map are in ascending order. -/
theorem psbt_base64_roundtrip {p : PSBT} (hv : p.claimValid)
    (hw : p.mapsWf) :
    ∃ s q, p.to_base64 = some s ∧ PSBT.from_base64 s = some q ∧
      q.g.Perm p.g ∧ List.Forall₂ (fun a b => a.Perm b) q.i p.i ∧
      List.Forall₂ (fun a b => a.Perm b) q.o p.o ∧
      q.serialize = p.serialize ∧ p.serialize.isSome = true ∧
      ∀ m ∈ p.g :: (p.i ++ p.o),
        PSBTMap.serialize m =
          some ((wireEntries (sortKeys m)).flatMap encPair ++ [0]) ∧
        (wireKeyTypes m).Pairwise (· ≤ ·) := by
  obtain ⟨txb, tx, hg, htx, hi, ho⟩ := hv
  obtain ⟨hwg, hwi, hwo⟩ := hw
  have hkeys : ∀ m ∈ p.g :: (p.i ++ p.o), ∀ e ∈ m, e.1 ≤ 255 := by
    intro m hm e he
    rcases List.mem_cons.mp hm with rfl | hm'
    · exact (hwg.2 e he).1
    · rcases List.mem_append.mp hm' with hmem | hmem
      · exact ((hwi m hmem).2 e he).1
      · exact ((hwo m hmem).2 e he).1
  have hser : PSBT.serialize p = some (psbtMagic ++ serMapBytes p.g ++
      p.i.flatMap serMapBytes ++ p.o.flatMap serMapBytes) :=
    PSBT.serialize_of_valid hg htx hi ho hkeys
  have hBok : bytesOk (psbtMagic ++ serMapBytes p.g ++
      p.i.flatMap serMapBytes ++ p.o.flatMap serMapBytes) := by
    refine bytesOk_append (bytesOk_append (bytesOk_append ?_ ?_) ?_) ?_
    · intro x hx; simp [psbtMagic] at hx; omega
    · exact serMapBytes_bytesOk hwg.2
    · exact bytesOk_flatMap fun m hm => serMapBytes_bytesOk (hwi m hm).2
    · exact bytesOk_flatMap fun m hm => serMapBytes_bytesOk (hwo m hm).2
  have hdeser := PSBT.deserialize_serialized hg htx hi ho hwg hwi hwo
  obtain ⟨B, hB⟩ : ∃ B, psbtMagic ++ serMapBytes p.g ++
      p.i.flatMap serMapBytes ++ p.o.flatMap serMapBytes = B := ⟨_, rfl⟩
  rw [hB] at hser hBok hdeser
  refine ⟨b64Encode B,
    ⟨sortKeys p.g, p.i.map sortKeys, p.o.map sortKeys, some tx⟩,
    ?_, ?_, sortKeys_perm p.g, forall₂_sortKeys p.i, forall₂_sortKeys p.o,
    ?_, ?_, ?_⟩
  · simp [PSBT.to_base64, hser]
  · simp [PSBT.from_base64, b64Decode_b64Encode B hBok, PSBT.from_binary, hdeser]
  · have hg' : (sortKeys p.g).lookup 0 = some (.scalar txb) := by
      rw [lookup_sortKeys hwg.1]; exact hg
    have hkeys' : ∀ m ∈ sortKeys p.g :: (p.i.map sortKeys ++ p.o.map sortKeys),
        ∀ e ∈ m, e.1 ≤ 255 := by
      intro m hm e he
      rcases List.mem_cons.mp hm with rfl | hm'
      · exact (hwg.2 e ((sortKeys_perm p.g).mem_iff.mp he)).1
      · rcases List.mem_append.mp hm' with hmem | hmem
        · obtain ⟨m0, hm0, rfl⟩ := List.mem_map.mp hmem
          exact ((hwi m0 hm0).2 e ((sortKeys_perm m0).mem_iff.mp he)).1
        · obtain ⟨m0, hm0, rfl⟩ := List.mem_map.mp hmem
          exact ((hwo m0 hm0).2 e ((sortKeys_perm m0).mem_iff.mp he)).1
    have hq := PSBT.serialize_of_valid (p := ⟨sortKeys p.g, p.i.map sortKeys,
      p.o.map sortKeys, some tx⟩) hg' htx (by simpa using hi) (by simpa using ho)
      hkeys'
    rw [hq, hser]
    simp only [serMapBytes_sortKeys, flatMap_serMapBytes_map, hB]
  · rw [hser]; rfl
  · intro m hm
    exact ⟨PSBTMap.serialize_of_wf (hkeys m hm), wireKeyTypes_sorted m⟩

/-- A PSBT that is valid in the claim's sense (key 0 holds a serialized
empty transaction, no inputs, no outputs) but whose global map has a
nested entry with empty key data. -/
def psbtEmptyKeyData : PSBT :=
  { g := [(0, .scalar [1, 0, 0, 0, 0, 0, 0, 0, 0, 0]), (5, .sub [([], [7])])]
    i := []
    o := []
    tx := none }

/-- C1 (counterexample): psbtEmptyKeyData satisfies the claim's validity
condition, yet the base64 round-trip does not reproduce a structurally
equal PSBT: the nested entry under key 5 with empty key data serializes
to a one-byte wire key and decodes back as a scalar. -/
theorem psbt_roundtrip_counterexample :
    psbtEmptyKeyData.g.lookup 0 =
        some (.scalar [1, 0, 0, 0, 0, 0, 0, 0, 0, 0]) ∧
      CTransaction.from_binary [1, 0, 0, 0, 0, 0, 0, 0, 0, 0] =
        some ⟨1, [], [], [], 0⟩ ∧
      (⟨1, [], [], [], 0⟩ : CTransaction).vin.length =
        psbtEmptyKeyData.i.length ∧
      (⟨1, [], [], [], 0⟩ : CTransaction).vout.length =
        psbtEmptyKeyData.o.length ∧
      ((psbtEmptyKeyData.to_base64.bind PSBT.from_base64).map fun q =>
          q.g.lookup 5) = some (some (.scalar [7])) ∧
      psbtEmptyKeyData.g.lookup 5 = some (.sub [([], [7])]) ∧
      (PSBTVal.scalar [7] : PSBTVal) ≠ .sub [([], [7])] :=
  ⟨by decide, by decide, by decide, by decide, by decide, by decide, by decide⟩

/-- A valid PSBT with well-formed maps, its global top level not yet in
key order. -/
def psbtRt : PSBT :=
  { g := [(2, .sub [([9], [8]), ([4], [3])]),
          (0, .scalar [1, 0, 0, 0, 0, 0, 0, 0, 0, 0])]
    i := []
    o := []
    tx := none }

/-- C1 (amended, witness): the round-trip theorem at psbtRt. -/
theorem psbt_base64_roundtrip_witness :
    psbtRt.claimValid ∧ psbtRt.mapsWf ∧
      ∃ s q, psbtRt.to_base64 = some s ∧ PSBT.from_base64 s = some q ∧
        q.g.Perm psbtRt.g ∧ List.Forall₂ (fun a b => a.Perm b) q.i psbtRt.i ∧
        List.Forall₂ (fun a b => a.Perm b) q.o psbtRt.o ∧
        q.serialize = psbtRt.serialize ∧ psbtRt.serialize.isSome = true ∧
        ∀ m ∈ psbtRt.g :: (psbtRt.i ++ psbtRt.o),
          PSBTMap.serialize m =
            some ((wireEntries (sortKeys m)).flatMap encPair ++ [0]) ∧
          (wireKeyTypes m).Pairwise (· ≤ ·) := by
  have hv : psbtRt.claimValid :=
    ⟨[1, 0, 0, 0, 0, 0, 0, 0, 0, 0], ⟨1, [], [], [], 0⟩,
      by decide, by decide, by decide, by decide⟩
  have hw : psbtRt.mapsWf := ⟨by decide, by simp [psbtRt], by simp [psbtRt]⟩
  exact ⟨hv, hw, psbt_base64_roundtrip hv hw⟩

theorem lookup_append_isSome {m : PSBTMapT} {k : Nat}
    (h : (m.lookup k).isSome = true) (l : PSBTMapT) :
    (m ++ l).lookup k = m.lookup k := by
  induction m with
  | nil => simp at h
  | cons e es ih =>
    rw [List.cons_append, lookup_cons, lookup_cons k e es]
    by_cases hk : k = e.1
    · simp [hk]
    · rw [lookup_cons] at h
      simp only [hk, if_false]
      exact ih (by simpa [hk] using h)

theorem mapSetSub_lookup_isSome (m : PSBTMapT) (t : Nat)
    (l : List (Bytes × Bytes)) (k : Nat) :
    ((mapSetSub m t l).lookup k).isSome = (m.lookup k).isSome := by
  induction m with
  | nil => rfl
  | cons e es ih =>
    simp only [mapSetSub]
    split
    next ht =>
      rw [lookup_cons, lookup_cons k e es]
      by_cases hk : k = t
      · simp [hk, ht, hk.trans ht.symm]
      · have : ¬ k = e.1 := fun hh => hk (hh.trans ht)
        simp [hk, this]
    next =>
      rw [lookup_cons, lookup_cons k e es]
      by_cases hk : k = e.1
      · simp [hk]
      · simp [hk, ih]

theorem insertPair_lookup_isSome {m : PSBTMapT} {e : Bytes × Bytes}
    {m' : PSBTMapT} (h : insertPair m e = some m') {k : Nat}
    (hk : (m.lookup k).isSome = true) : (m'.lookup k).isSome = true := by
  match he : e.1 with
  | [] => simp only [insertPair, he] at h; exact absurd h (by simp)
  | [t] =>
    simp only [insertPair, he, mapInsertScalar] at h
    split at h
    · exact absurd h (by simp)
    · injection h with h'
      rw [← h', lookup_append_isSome hk]
      exact hk
  | t :: a :: kd =>
    simp only [insertPair, he, mapInsertSub] at h
    split at h
    · injection h with h'
      rw [← h', lookup_append_isSome hk]
      exact hk
    · injection h with h'
      rw [← h', mapSetSub_lookup_isSome]
      exact hk
    · exact absurd h (by simp)

theorem insertAll_lookup_isSome {es : List (Bytes × Bytes)} :
    ∀ {m m' : PSBTMapT}, insertAll m es = some m' → ∀ {k : Nat},
    (m.lookup k).isSome = true → (m'.lookup k).isSome = true := by
  induction es with
  | nil =>
    intro m m' h k hk
    simp only [insertAll, Option.some.injEq] at h
    exact h ▸ hk
  | cons e es ih =>
    intro m m' h k hk
    simp only [insertAll, Option.bind_eq_bind] at h
    cases hp : insertPair m e with
    | none => rw [hp] at h; simp at h
    | some m1 =>
      rw [hp] at h
      simp only [Option.some_bind] at h
      exact ih h (insertPair_lookup_isSome hp hk)

/-- Folding any entry stream that assigns the same one-byte key twice
fails, whatever else the stream holds. -/
theorem insertAll_dup_scalar (es1 es2 es3 : List (Bytes × Bytes)) (t : Nat)
    (v1 v2 : Bytes) :
    insertAll [] (es1 ++ ([t], v1) :: es2 ++ ([t], v2) :: es3) = none := by
  rw [insertAll_append]
  cases h1 : insertAll [] (es1 ++ ([t], v1) :: es2) with
  | none => rfl
  | some m2 =>
    have hk2 : (m2.lookup t).isSome = true := by
      rw [insertAll_append] at h1
      cases h0 : insertAll [] es1 with
      | none => rw [h0] at h1; simp at h1
      | some m1 =>
        rw [h0] at h1
        simp only [Option.bind_eq_bind, Option.some_bind, insertAll,
          insertPair, mapInsertScalar] at h1
        cases hl : (m1.lookup t).isSome with
        | true => simp [hl] at h1
        | false =>
          simp only [hl, Bool.false_eq_true, if_false, Option.some_bind] at h1
          have hbase : ((m1 ++ [(t, PSBTVal.scalar v1)]).lookup t).isSome = true := by
            have hnone : m1.lookup t = none := by
              cases hq : m1.lookup t with
              | none => rfl
              | some _ => rw [hq] at hl; simp at hl
            rw [lookup_append_of_none hnone, lookup_singleton_eq]
            rfl
          exact insertAll_lookup_isSome h1 hbase
    have hfail : insertPair m2 ([t], v2) = none := by
      simp [insertPair, mapInsertScalar, hk2]
    simp [insertAll, hfail]

/-- Decoding a stream of serialized entries followed by the terminator
folds the entries from the empty map. -/
theorem psbtmap_deserialize_entries {es : List (Bytes × Bytes)} (rest : Bytes)
    (hwf : ∀ e ∈ es, e.1 ≠ [] ∧ e.1.length < 2 ^ 64 ∧ e.2.length < 2 ^ 64) :
    PSBTMap.deserialize (es.flatMap encPair ++ 0 :: rest) =
      (insertAll [] es).bind fun m => some (m, rest) := by
  unfold PSBTMap.deserialize
  apply deserializeFuel_entries es _ [] rest _ hwf
  have := flatMap_encPair_length es
  simp only [List.length_append, List.length_cons]
  omega

/-- C10: every map stream that serializes the same one-byte (scalar)
key twice fails to decode, wherever the duplicates sit among the
entries and whatever follows; a duplicated multi-byte key (same type
byte, same key data) decodes successfully and the later value silently
overwrites the earlier one in the nested map. -/
theorem psbtmap_duplicate_keys :
    (∀ (es1 es2 es3 : List (Bytes × Bytes)) (t : Nat) (v1 v2 rest : Bytes),
      (∀ e ∈ es1 ++ ([t], v1) :: es2 ++ ([t], v2) :: es3,
        e.1 ≠ [] ∧ e.1.length < 2 ^ 64 ∧ e.2.length < 2 ^ 64) →
      PSBTMap.deserialize
        ((es1 ++ ([t], v1) :: es2 ++ ([t], v2) :: es3).flatMap encPair ++
          0 :: rest) = none) ∧
    (∀ (t : Nat) (kd v1 v2 rest : Bytes), kd ≠ [] → kd.length + 1 < 2 ^ 64 →
      v1.length < 2 ^ 64 → v2.length < 2 ^ 64 →
      PSBTMap.deserialize
        (encPair (t :: kd, v1) ++ encPair (t :: kd, v2) ++ 0 :: rest) =
        some ([(t, .sub [(kd, v2)])], rest)) := by
  constructor
  · intro es1 es2 es3 t v1 v2 rest hwf
    rw [psbtmap_deserialize_entries rest hwf, insertAll_dup_scalar]
    rfl
  · intro t kd v1 v2 rest hkd hlen h1 h2
    unfold PSBTMap.deserialize
    obtain ⟨f, hf⟩ :
        ∃ f, (encPair (t :: kd, v1) ++ encPair (t :: kd, v2) ++ 0 :: rest).length + 1 =
          f + 1 + 1 + 1 := by
      have hp := ser_compact_size_length_pos (kd.length + 1)
      refine ⟨(encPair (t :: kd, v1) ++ encPair (t :: kd, v2) ++ 0 :: rest).length - 2, ?_⟩
      simp only [encPair, ser_string, List.length_append, List.length_cons]
      omega
    rw [hf, List.append_assoc, deserializeFuel_step (by simp) (by simpa using hlen) h1]
    have hins : insertPair [] (t :: kd, v1) = some [(t, .sub [(kd, v1)])] := by
      cases kd with
      | nil => exact absurd rfl hkd
      | cons a l => simp [insertPair, mapInsertSub]
    rw [hins]
    simp only [Option.bind_eq_bind, Option.some_bind]
    rw [deserializeFuel_step (by simp) (by simpa using hlen) h2]
    have hins2 : insertPair [(t, .sub [(kd, v1)])] (t :: kd, v2) =
        some [(t, .sub [(kd, v2)])] := by
      cases kd with
      | nil => exact absurd rfl hkd
      | cons a l =>
        simp [insertPair, mapInsertSub, List.lookup, mapSetSub, assocSet]
    rw [hins2]
    simp only [Option.bind_eq_bind, Option.some_bind]
    exact deserializeFuel_term

/-- C10 (witness): both duplicate-key behaviours at concrete streams. -/
theorem psbtmap_duplicate_keys_witness :
    (∀ e ∈ ([] ++ ([7], [1]) :: [] ++ ([7], [2]) :: [] :
        List (Bytes × Bytes)),
      e.1 ≠ [] ∧ e.1.length < 2 ^ 64 ∧ e.2.length < 2 ^ 64) ∧
    PSBTMap.deserialize
        (([] ++ ([7], [1]) :: [] ++ ([7], [2]) :: [] :
          List (Bytes × Bytes)).flatMap encPair ++ 0 :: []) = none ∧
    PSBTMap.deserialize
        (encPair (7 :: [9], [1]) ++ encPair (7 :: [9], [2]) ++ 0 :: []) =
        some ([(7, .sub [([9], [2])])], []) :=
  ⟨by decide,
    psbtmap_duplicate_keys.1 [] [] [] 7 [1] [2] [] (by decide),
    psbtmap_duplicate_keys.2 7 [9] [1] [2] [] (by decide) (by decide)
      (by decide) (by decide)⟩

end Liana
